import Mathlib

/-!
Verification of the FileManager core engine of the scriptboard repository
(src/backend/fileman/core.py and src/backend/fileman/router.py).

The filesystem is modelled as an association list from paths to file data.
A path is a directory component list plus a file name; file data carries the
byte content (as a string), the stat size and the stat mtime.  External
capabilities of the Python code (fnmatch, strftime, hashlib digests, the
send2trash probe and the thread-pool completion order) are abstracted as
fields of an Env record; everything else is translated directly from the
source.  Directories are not tracked separately: ensure_dir and
remove_empty_dirs act only on directories and therefore do not change the
file map (remove_empty_dirs yields no actions in this embedding).
Fallible operations (shutil.move, Path.rename, unlink, send2trash on a
missing file) are modelled with Option, none standing for a raised
exception.
-/

namespace Fileman

/-- Path of a file: directory components plus the file name
(mirrors pathlib.Path: p.parent and p.name). -/
structure FPath where
  dir : List String
  name : String
deriving DecidableEq, Repr

/-- Data of one regular file: byte content (for hashing and for content
preservation statements), the stat size st_size and the stat mtime. -/
structure FileData where
  content : String
  size : Nat
  mtime : Int
deriving DecidableEq, Repr

/-- The filesystem: a finite map from paths to file data, as an association
list.  A real filesystem has no duplicate paths; well-formedness is the
Nodup of the key list. -/
abbrev Fs := List (FPath × FileData)

/-- Key list of a filesystem. -/
def fsKeys (fs : Fs) : List FPath := fs.map (fun e => e.1)

/-- Well-formed filesystem: no duplicate paths. -/
def Fs.WF (fs : Fs) : Prop := (fsKeys fs).Nodup

/-- Lookup of a path (Path.stat / reading the file; none when the file does
not exist). -/
def fsFind : Fs → FPath → Option FileData
  | [], _ => none
  | e :: rest, p => if e.1 = p then some e.2 else fsFind rest p

/-- Existence check, Path.exists(). -/
def fsExists (fs : Fs) (p : FPath) : Bool := (fsFind fs p).isSome

/-- Removal of a path (unlink / the source side of a move). -/
def fsErase : Fs → FPath → Fs
  | [], _ => []
  | e :: rest, p => if e.1 = p then fsErase rest p else e :: fsErase rest p

/-- Creation of a file at a path (the destination side of a move or rename;
POSIX rename semantics replace an existing destination). -/
def fsInsert (fs : Fs) (p : FPath) (d : FileData) : Fs := fsErase fs p ++ [(p, d)]

/-! ### Python pathlib stem/suffix

PurePath.suffix is name[i:] when i = name.rfind(".") satisfies
0 < i < len(name) - 1, and "" otherwise; PurePath.stem is the rest. -/

/-- Index of the last occurrence of a dot in a character list, as in
str.rfind("."). -/
def rfindDot : List Char → Option Nat
  | [] => none
  | c :: cs =>
    match rfindDot cs with
    | some i => some (i + 1)
    | none => if c = '.' then some 0 else none

/-- Split a file name into pathlib stem and suffix. -/
def stemSuffix (name : String) : String × String :=
  match rfindDot name.data with
  | some i =>
    if 0 < i ∧ i < name.data.length - 1 then
      (⟨name.data.take i⟩, ⟨name.data.drop i⟩)
    else (name, "")
  | none => (name, "")

/-! ### Decimal printing of a natural number

Python builds collision candidates with an f-string containing str(i); the
decimal digit list of i is modelled here directly. -/

/-- Fueled decimal printer; the fuel only forces structural recursion and
never runs out when it starts at the number itself (natToDigitsAux_irrel). -/
def natToDigitsAux : Nat → Nat → List Char
  | 0, n => [Nat.digitChar n]
  | fuel + 1, n =>
    if n < 10 then [Nat.digitChar n]
    else natToDigitsAux fuel (n / 10) ++ [Nat.digitChar (n % 10)]

/-- Decimal digit characters of a natural number (most significant first),
the character content of str(i) in Python for a non-negative i. -/
def natToDigits (n : Nat) : List Char := natToDigitsAux n n

/-! ### unique_path (core.py lines 118-130) -/

/-- Candidate name probed by unique_path for index i:
the f-string stem + " (" + str(i) + ")" + suffix. -/
def probeName (stem sfx : String) (i : Nat) : String :=
  stem ++ " (" ++ String.mk (natToDigits i) ++ ")" ++ sfx

/-- Probe loop of unique_path: tries stem (i)suffix, stem (i+1)suffix, ...
The fuel argument bounds the search; unique_path passes fs.length + 1 fuel,
which always suffices (uniquePath_fresh below), so the Python while-True
loop and this fueled loop agree. -/
def uniquePathLoop (fs : Fs) (parent : List String) (stem sfx : String) :
    Nat → Nat → FPath
  | 0, i => ⟨parent, probeName stem sfx i⟩
  | fuel + 1, i =>
    let cand : FPath := ⟨parent, probeName stem sfx i⟩
    if fsExists fs cand then uniquePathLoop fs parent stem sfx fuel (i + 1) else cand

/-- unique_path (core.py lines 118-130): return dst unchanged when nothing
exists there, else probe stem (1)suffix, stem (2)suffix, ... until an unused
name is found. -/
def uniquePath (fs : Fs) (dst : FPath) : FPath :=
  if fsExists fs dst then
    uniquePathLoop fs dst.dir (stemSuffix dst.name).1 (stemSuffix dst.name).2
      (fs.length + 1) 1
  else dst

/-! ### Environment of external capabilities -/

/-- External capabilities the Python code obtains from libraries or from the
runtime; the engine is verified for an arbitrary environment.
pm models fnmatch.fnmatch; dateKey and monthKey model time.strftime of
gmtime(mtime) with percent-Y-m-d and percent-Y-m; hasTrash models the
HAS_SEND2TRASH import probe; hashOf models file_hash(f, algo) applied to the
content of f, none standing for a raised per-file exception; sched models
the as_completed completion order of the thread pool (theorems that need it
assume it permutes its input). -/
structure Env where
  pm : String → String → Bool
  dateKey : Int → String
  monthKey : Int → String
  hasTrash : Bool
  hashOf : String → FPath → String → Option String
  sched : List FPath → List FPath

/-- String form of a path (str(p) in Python), used in Action meta values. -/
def pathString (p : FPath) : String :=
  String.intercalate "/" (p.dir ++ [p.name])

/-- Action (core.py lines 28-42): immutable record of one file operation. -/
structure Action where
  op : String
  src : FPath
  dst : Option FPath := none
  meta : List (String × String) := []
deriving DecidableEq, Repr

/-! ### Scanning (safe_iter_files, core.py lines 76-115) -/

/-- Boolean directory-prefix test: the scanned file lies under the root
(rglob reaches every file whose directory extends the root). -/
def dirUnder : List String → List String → Bool
  | [], _ => true
  | _ :: _, [] => false
  | a :: as, b :: bs => if a = b then dirUnder as bs else false

/-- Pattern match of matches_pattern (core.py lines 65-68): fnmatch against
the full path or against the bare name. -/
def matchesPattern (env : Env) (p : FPath) (pat : String) : Bool :=
  env.pm (pathString p) pat || env.pm p.name pat

/-- matches_any_pattern (core.py lines 71-73). -/
def matchesAny (env : Env) (p : FPath) (pats : List String) : Bool :=
  pats.any (fun pat => matchesPattern env p pat)

/-- Filter decision of safe_iter_files for one file: under the root,
not excluded (exclusions apply only when the list is non-empty), and
included when an include list is given. -/
def scanKeep (env : Env) (root : List String) (recursive : Bool)
    (exclude includePats : List String) (p : FPath) : Bool :=
  (if recursive then dirUnder root p.dir else decide (p.dir = root))
    && (if exclude.isEmpty then true else !(matchesAny env p exclude))
    && (if includePats.isEmpty then true else matchesAny env p includePats)

/-- safe_iter_files (core.py lines 76-115) for a directory root: the files
of the filesystem that survive the root/exclude/include filters, in
traversal order (modelled as the order of the file map). -/
def safe_iter_files (env : Env) (fs : Fs) (root : List String) (recursive : Bool)
    (exclude includePats : List String) : List FPath :=
  (fsKeys fs).filter (scanKeep env root recursive exclude includePats)

/-! ### Primitive operations (core.py lines 133-179) -/

/-- move_file (core.py lines 141-149): resolve a unique destination inside
dst_dir, move the file when applying (shutil.move raises when the source
does not exist), and always return the move Action.  ensure_dir only
touches directories and is a no-op on the file map. -/
def move_file (fs : Fs) (src : FPath) (dstDir : List String) (app : Bool) :
    Option (Action × Fs) :=
  let dst := uniquePath fs ⟨dstDir, src.name⟩
  if app then
    match fsFind fs src with
    | none => none
    | some d => some (⟨"move", src, some dst, []⟩, fsInsert (fsErase fs src) dst d)
  else some (⟨"move", src, some dst, []⟩, fs)

/-- rename_file (core.py lines 152-158): unique destination for
src.with_name(new_name); Path.rename raises when the source is missing. -/
def rename_file (fs : Fs) (src : FPath) (newName : String) (app : Bool) :
    Option (Action × Fs) :=
  let dst := uniquePath fs ⟨src.dir, newName⟩
  if app then
    match fsFind fs src with
    | none => none
    | some d => some (⟨"rename", src, some dst, []⟩, fsInsert (fsErase fs src) dst d)
  else some (⟨"rename", src, some dst, []⟩, fs)

/-- safe_delete (core.py lines 161-179): OS trash when requested and
available, else permanent delete; both raise on a missing file when
applying, and neither touches the filesystem on a dry run. -/
def safe_delete (env : Env) (fs : Fs) (p : FPath) (useTrash app : Bool) :
    Option (Action × Fs) :=
  if useTrash && env.hasTrash then
    if app then
      match fsFind fs p with
      | none => none
      | some _ => some (⟨"trash", p, none, []⟩, fsErase fs p)
    else some (⟨"trash", p, none, []⟩, fs)
  else
    if app then
      match fsFind fs p with
      | none => none
      | some _ => some (⟨"delete", p, none, []⟩, fsErase fs p)
    else some (⟨"delete", p, none, []⟩, fs)

/-! ### Hashing (core.py lines 182-229) -/

/-- Outcome of hashing one file: none when the file cannot be read or the
digest computation raises (the exception that parallel_hash_files catches
per file). -/
def hashResult (env : Env) (fs : Fs) (algo : String) (f : FPath) : Option String :=
  match fsFind fs f with
  | none => none
  | some d => env.hashOf algo f d.content

/-- parallel_hash_files (core.py lines 194-229): one result entry per
submitted file, collected in thread-pool completion order (env.sched);
a failed file is recorded as none instead of aborting the batch. -/
def parallel_hash_files (env : Env) (fs : Fs) (files : List FPath) (algo : String) :
    List (FPath × Option String) :=
  (env.sched files).map (fun f => (f, hashResult env fs algo f))

/-! ### sanitize_filename (core.py lines 232-236) -/

/-- Replacement of one character by the regex sub with class
A-Za-z0-9._ space hyphen: characters outside the class become an
underscore. -/
def sanitizeChar (c : Char) : Char :=
  if ('A' ≤ c && c ≤ 'Z') || ('a' ≤ c && c ≤ 'z') || ('0' ≤ c && c ≤ '9')
      || c = '.' || c = '_' || c = ' ' || c = '-' then c
  else '_'

/-- Collapse of whitespace runs to a single space (after the first
substitution the only whitespace character left is the space); the Boolean
records whether the previous emitted character belonged to a space run. -/
def collapseSpacesAux : Bool → List Char → List Char
  | _, [] => []
  | prevSpace, c :: rest =>
    if c = ' ' then
      if prevSpace then collapseSpacesAux true rest
      else ' ' :: collapseSpacesAux true rest
    else c :: collapseSpacesAux false rest

/-- re.sub of a whitespace run by one space. -/
def collapseSpaces (cs : List Char) : List Char := collapseSpacesAux false cs

/-- str.strip() on the space character. -/
def stripSpaces (cs : List Char) : List Char :=
  ((cs.dropWhile (fun x => x = ' ')).reverse.dropWhile (fun x => x = ' ')).reverse

/-- sanitize_filename (core.py lines 232-236). -/
def sanitize_filename (name : String) : String :=
  ⟨stripSpaces (collapseSpaces (name.data.map sanitizeChar))⟩

/-! ### Helpers for cmd_rename -/

/-- Zero-padded decimal rendering of the enumeration counter, the f-string
format i:0 width d of Python (sign first, digits padded to the remaining
width). -/
def pyZeroPad (width : Nat) (i : Int) : String :=
  if i < 0 then
    let ds := natToDigits i.natAbs
    ⟨'-' :: (List.replicate (width - 1 - ds.length) '0' ++ ds)⟩
  else
    let ds := natToDigits i.toNat
    ⟨List.replicate (width - ds.length) '0' ++ ds⟩

/-- str.lower() over the character content. -/
def strLower (s : String) : String := ⟨s.data.map Char.toLower⟩

/-- str.upper() over the character content. -/
def strUpper (s : String) : String := ⟨s.data.map Char.toUpper⟩

/-- str.lstrip(".") - drop every leading dot. -/
def lstripDots (s : String) : String := ⟨s.data.dropWhile (fun c => c = '.')⟩

/-- Extension-filter skip of cmd_rename (core.py lines 363, 369-370): with a
filter given and non-empty after lowercasing and stripping dots, skip files
whose lowercased stripped suffix differs. -/
def extSkip (extFilter : Option String) (name : String) : Bool :=
  match extFilter with
  | none => false
  | some e =>
    let onlyExt := lstripDots (strLower e)
    if onlyExt = "" then false
    else decide (lstripDots (strLower (stemSuffix name).2) ≠ onlyExt)

/-- New-name pipeline of cmd_rename (core.py lines 372-392): regex
substitution on the stem, enumeration counter, prefix and suffix wrapping,
case folding (each fold applies only when the other flag is off), extension
re-attachment and optional sanitizing.  The regex substitution is the
abstract function sub (re.sub pattern replace). -/
def renameNewName (sub : Option (String → String)) (enumFiles : Bool) (i : Int)
    (width : Nat) (pre suf : String) (lower upper sanitize : Bool)
    (stem ext : String) : String :=
  let name := match sub with
    | some s => s stem
    | none => stem
  let name := if enumFiles then name ++ "_" ++ pyZeroPad width i else name
  let name := pre ++ name ++ suf
  let name :=
    if lower && !upper then strLower name
    else if upper && !lower then strUpper name
    else name
  let newName := name ++ ext
  if sanitize then sanitize_filename newName else newName

/-! ### cmd_organize (core.py lines 262-315) -/

/-- Bucket key for organize by extension: the suffix without its dot,
lowercased, or "noext" for a file without extension (core.py line 297). -/
def extKey (name : String) : String :=
  let sfx := (stemSuffix name).2
  if sfx = "" then "noext" else strLower ⟨sfx.data.drop 1⟩

/-- One file step of cmd_organize: compute the bucket key (stat is consulted
only for the date and month modes) and move the file into base slash key. -/
def orgStep (env : Env) (byMode : String) (base : List String) (app : Bool)
    (fs : Fs) (f : FPath) : Option (Action × Fs) :=
  if byMode = "ext" then move_file fs f (base ++ [extKey f.name]) app
  else
    match fsFind fs f with
    | none => none
    | some d =>
      let key := if byMode = "date" then env.dateKey d.mtime else env.monthKey d.mtime
      move_file fs f (base ++ [key]) app

/-- Loop of cmd_organize over the scanned files. -/
def orgGo (env : Env) (byMode : String) (base : List String) (app : Bool) :
    List FPath → List Action → Fs → Option (List Action × Fs)
  | [], acc, fs => some (acc, fs)
  | f :: rest, acc, fs =>
    match orgStep env byMode base app fs f with
    | none => none
    | some (a, fs') => orgGo env byMode base app rest (acc ++ [a]) fs'

/-- cmd_organize (core.py lines 262-315).  remove_empty only removes
directories, which the file map does not track, so it contributes no
actions in this embedding. -/
def cmd_organize (env : Env) (fs0 : Fs) (path : List String) (byMode : String)
    (dest : Option (List String)) (recursive : Bool)
    (exclude includePats : List String) (removeEmpty app : Bool) :
    Option (List Action × Fs) :=
  let base := dest.getD path
  let files := safe_iter_files env fs0 path recursive exclude includePats
  orgGo env byMode base app files [] fs0

/-! ### cmd_rename (core.py lines 318-401) -/

/-- Loop of cmd_rename over the scanned files, threading the enumeration
counter; a file is skipped by the extension filter, or when the computed
name is unchanged (no Action emitted); the counter advances for every
non-ext-skipped file when enumeration is on. -/
def renGo (sub : Option (String → String)) (enumFiles : Bool) (step : Int)
    (width : Nat) (pre suf : String) (lower upper sanitize : Bool)
    (extFilter : Option String) (app : Bool) :
    List FPath → Int → List Action → Fs → Option (List Action × Fs)
  | [], _, acc, fs => some (acc, fs)
  | f :: rest, i, acc, fs =>
    if extSkip extFilter f.name then
      renGo sub enumFiles step width pre suf lower upper sanitize extFilter app
        rest i acc fs
    else
      let s := stemSuffix f.name
      let newName := renameNewName sub enumFiles i width pre suf lower upper
        sanitize s.1 s.2
      let i' := if enumFiles then i + step else i
      if newName ≠ f.name then
        match rename_file fs f newName app with
        | none => none
        | some (a, fs') =>
          renGo sub enumFiles step width pre suf lower upper sanitize extFilter app
            rest i' (acc ++ [a]) fs'
      else
        renGo sub enumFiles step width pre suf lower upper sanitize extFilter app
          rest i' acc fs

/-- cmd_rename (core.py lines 318-401). -/
def cmd_rename (env : Env) (fs0 : Fs) (path : List String)
    (sub : Option (String → String)) (pre suf : String)
    (lower upper sanitize enumFiles : Bool) (start step : Int) (width : Nat)
    (extFilter : Option String) (recursive : Bool) (exclude : List String)
    (app : Bool) : Option (List Action × Fs) :=
  let files := safe_iter_files env fs0 path recursive exclude []
  renGo sub enumFiles step width pre suf lower upper sanitize extFilter app
    files start [] fs0

/-! ### cmd_clean (core.py lines 404-475) -/

/-- Filter decision of cmd_clean (core.py lines 446-451): a file matches
when no age cutoff applies or its mtime is below the cutoff, and no size
threshold applies or its size is not below largerThanMB times 1024 squared
bytes. -/
def cleanMatches (olderThanDays largerThanMB : Option Int) (now : Int)
    (d : FileData) : Bool :=
  (match olderThanDays with
    | none => true
    | some days => decide (d.mtime < now - days * 86400))
  && (match largerThanMB with
    | none => true
    | some mb => decide (mb * 1048576 ≤ (d.size : Int)))

/-- Disposition of one matching file in cmd_clean (core.py lines 457-467):
archive move when an archive directory is given, else permanent delete when
requested, else safe_delete honouring use_trash. -/
def cleanStep (env : Env) (archiveDir : Option (List String))
    (useTrash delPerm app : Bool) (fs : Fs) (f : FPath) : Option (Action × Fs) :=
  match archiveDir with
  | some ad => move_file fs f ad app
  | none =>
    if delPerm then safe_delete env fs f false app
    else safe_delete env fs f useTrash app

/-- Loop of cmd_clean over the scanned files; stat errors on a vanished file
skip the file (the try/except OSError continue). -/
def cleanGo (env : Env) (olderThanDays largerThanMB : Option Int) (now : Int)
    (archiveDir : Option (List String)) (useTrash delPerm app : Bool) :
    List FPath → List Action → Fs → Option (List Action × Fs)
  | [], acc, fs => some (acc, fs)
  | f :: rest, acc, fs =>
    match fsFind fs f with
    | none => cleanGo env olderThanDays largerThanMB now archiveDir useTrash
        delPerm app rest acc fs
    | some d =>
      if cleanMatches olderThanDays largerThanMB now d then
        match cleanStep env archiveDir useTrash delPerm app fs f with
        | none => none
        | some (a, fs') => cleanGo env olderThanDays largerThanMB now archiveDir
            useTrash delPerm app rest (acc ++ [a]) fs'
      else cleanGo env olderThanDays largerThanMB now archiveDir useTrash
        delPerm app rest acc fs

/-- cmd_clean (core.py lines 404-475); now is the time.time() value read
once before the loop. -/
def cmd_clean (env : Env) (fs0 : Fs) (path : List String)
    (olderThanDays largerThanMB : Option Int) (now : Int)
    (archiveDir : Option (List String)) (useTrash delPerm removeEmpty : Bool)
    (recursive : Bool) (exclude : List String) (app : Bool) :
    Option (List Action × Fs) :=
  let files := safe_iter_files env fs0 path recursive exclude []
  cleanGo env olderThanDays largerThanMB now archiveDir useTrash delPerm app
    files [] fs0

/-! ### cmd_index_stream (core.py lines 527-588) -/

/-- One row of an index (the per-file dict of cmd_index and
cmd_index_stream); hashField is present exactly when include_hash was
requested, and its inner value is none when hashing the file raised. -/
structure FileRecord where
  path : FPath
  name : String
  size_bytes : Nat
  mtime_epoch : Int
  hashField : Option (Option String) := none
deriving DecidableEq, Repr

/-- Event yielded by a streaming command. -/
inductive StreamEvent where
  | progress (current total : Nat) (phase : String) (currentFile : Option String)
  | complete (totalFiles totalBytes : Nat) (files : List FileRecord)
deriving DecidableEq, Repr

/-- Per-file loop of cmd_index_stream: a vanished file (stat OSError) yields
nothing but still advances the enumerate index; otherwise one indexing
progress event is yielded and the row and byte total grow. -/
def idxGo (env : Env) (fs : Fs) (includeHash : Bool) (algo : String) (total : Nat) :
    List FPath → Nat → Nat → List FileRecord → List StreamEvent
  | [], _, totalBytes, results =>
    [StreamEvent.complete results.length totalBytes results]
  | f :: rest, i, totalBytes, results =>
    match fsFind fs f with
    | none => idxGo env fs includeHash algo total rest (i + 1) totalBytes results
    | some d =>
      let row : FileRecord :=
        ⟨f, f.name, d.size, d.mtime,
          if includeHash then some (env.hashOf algo f d.content) else none⟩
      StreamEvent.progress (i + 1) total "indexing" (some f.name)
        :: idxGo env fs includeHash algo total rest (i + 1) (totalBytes + d.size)
          (results ++ [row])

/-- cmd_index_stream (core.py lines 527-588): a scanning progress event,
one indexing progress event per readable file, and a final complete event
carrying the rows and totals. -/
def cmd_index_stream (env : Env) (fs : Fs) (path : List String)
    (includeHash : Bool) (algo : String) (recursive : Bool)
    (exclude : List String) : List StreamEvent :=
  let files := safe_iter_files env fs path recursive exclude []
  StreamEvent.progress 0 files.length "scanning" none
    :: idxGo env fs includeHash algo files.length files 0 0 []

/-! ### cmd_dupes (core.py lines 591-684) -/

/-- A duplicate group, mirroring the group dict of cmd_dupes together with
the DupeGroup response schema: cmd_dupes itself never sets a wasted-bytes
value, so the schema default none is recorded in that field. -/
structure DupeGroup where
  hash : String
  hash_algo : String
  size_bytes : Nat
  count : Nat
  keep : FPath
  duplicates : List FPath
  actions : List Action
  wasted_bytes : Option Nat := none
deriving DecidableEq, Repr

/-- dict.setdefault(key, list).append(value): insertion-ordered buckets. -/
def addToBucket {β : Type} [DecidableEq β] (bs : List (β × List FPath)) (k : β)
    (f : FPath) : List (β × List FPath) :=
  match bs with
  | [] => [(k, [f])]
  | (k', fs) :: rest =>
    if k' = k then (k', fs ++ [f]) :: rest else (k', fs) :: addToBucket rest k f

/-- Per-duplicate disposition of cmd_dupes (core.py lines 664-674). -/
def dupeStep (env : Env) (action : String) (archiveDir : Option (List String))
    (keep : FPath) (app : Bool) (fs : Fs) (f : FPath) : Option (Action × Fs) :=
  if action = "list" then
    some (⟨"dupe", f, none, [("kept", pathString keep)]⟩, fs)
  else if action = "trash" then safe_delete env fs f true app
  else if action = "delete" then safe_delete env fs f false app
  else if action = "archive" then
    match archiveDir with
    | some ad => move_file fs f ad app
    | none => some (⟨"dupe", f, none, [("kept", pathString keep)]⟩, fs)
  else some (⟨"dupe", f, none, [("kept", pathString keep)]⟩, fs)

/-- Inner loop of cmd_dupes over the duplicates of one group. -/
def dupeActsGo (env : Env) (action : String) (archiveDir : Option (List String))
    (keep : FPath) (app : Bool) :
    List FPath → List Action → Fs → Option (List Action × Fs)
  | [], acc, fs => some (acc, fs)
  | f :: rest, acc, fs =>
    match dupeStep env action archiveDir keep app fs f with
    | none => none
    | some (a, fs') => dupeActsGo env action archiveDir keep app rest (acc ++ [a]) fs'

/-- Outer loop of cmd_dupes over the hash buckets: buckets of fewer than two
files are skipped; the size is the stat size of the kept file at the time
the group is built. -/
def dupesGo (env : Env) (algo action : String) (archiveDir : Option (List String))
    (app : Bool) :
    List (String × List FPath) → List DupeGroup → Fs → Option (List DupeGroup × Fs)
  | [], gs, fs => some (gs, fs)
  | (h, files) :: rest, gs, fs =>
    if files.length < 2 then dupesGo env algo action archiveDir app rest gs fs
    else
      match files with
      | [] => dupesGo env algo action archiveDir app rest gs fs
      | f0 :: dups =>
        match fsFind fs f0 with
        | none => none
        | some d =>
          match dupeActsGo env action archiveDir f0 app dups [] fs with
          | none => none
          | some (acts, fs') =>
            dupesGo env algo action archiveDir app rest
              (gs ++ [⟨h, algo, d.size, dups.length + 1, f0, dups, acts, none⟩]) fs'

/-- Size buckets of cmd_dupes (core.py lines 619-625): files grouped by stat
size in scan order; a stat error skips the file. -/
def dupesBySize (fs0 : Fs) (files : List FPath) : List (Nat × List FPath) :=
  files.foldl
    (fun bs f =>
      match fsFind fs0 f with
      | none => bs
      | some d => addToBucket bs d.size f) []

/-- Candidate files of cmd_dupes (core.py lines 627-631): members of size
buckets with at least two files, in bucket order. -/
def dupesCandidates (fs0 : Fs) (files : List FPath) : List FPath :=
  (((dupesBySize fs0 files).filter (fun b => 2 ≤ b.2.length)).map
    (fun b => b.2)).flatten

/-- Hash buckets of cmd_dupes (core.py lines 637-640): successfully hashed
candidates grouped by digest in result order; a failed (none) hash is
excluded. -/
def dupesByHash (entries : List (FPath × Option String)) :
    List (String × List FPath) :=
  entries.foldl
    (fun bs e =>
      match e.2 with
      | some h => addToBucket bs h e.1
      | none => bs) []

/-- cmd_dupes (core.py lines 591-684). -/
def cmd_dupes (env : Env) (fs0 : Fs) (path : List String) (algo action : String)
    (archiveDir : Option (List String)) (recursive : Bool)
    (exclude : List String) (app : Bool) : Option (List DupeGroup × Fs) :=
  let files := safe_iter_files env fs0 path recursive exclude []
  let candidates := dupesCandidates fs0 files
  let entries := parallel_hash_files env fs0 candidates algo
  dupesGo env algo action archiveDir app (dupesByHash entries) [] fs0

/-- Response-level total of wasted bytes (router.py line 255): each group
contributes its wasted_bytes value when present and the size times
count minus one fallback otherwise. -/
def dupesTotalWasted (groups : List DupeGroup) : Nat :=
  (groups.map (fun g => g.wasted_bytes.getD (g.size_bytes * (g.count - 1)))).sum

/-! ### undo_actions (core.py lines 784-822) -/

/-- Reversal of one recorded Action (the loop body of undo_actions): a move
with a destination is moved back into the original parent directory, a
rename with a destination is renamed back to the original bare name, a
trash or delete yields an undo_failed entry, an rmdir re-creates a
directory (no file-map change), and any other op contributes nothing. -/
def undoStep (fs : Fs) (a : Action) (app : Bool) : Option (List Action × Fs) :=
  if a.op = "move" then
    match a.dst with
    | some d => (move_file fs d a.src.dir app).map (fun r => ([r.1], r.2))
    | none => some ([], fs)
  else if a.op = "rename" then
    match a.dst with
    | some d => (rename_file fs d a.src.name app).map (fun r => ([r.1], r.2))
    | none => some ([], fs)
  else if a.op = "trash" || a.op = "delete" then
    some ([⟨"undo_failed", a.src, none,
      [("reason", "Cannot restore deleted files")]⟩], fs)
  else if a.op = "rmdir" then
    some ([⟨"mkdir", a.src, none, []⟩], fs)
  else some ([], fs)

/-- Loop of undo_actions over the already-reversed batch. -/
def undoGo (app : Bool) : List Action → List Action → Fs → Option (List Action × Fs)
  | [], acc, fs => some (acc, fs)
  | a :: rest, acc, fs =>
    match undoStep fs a app with
    | none => none
    | some (ras, fs') => undoGo app rest (acc ++ ras) fs'

/-- undo_actions (core.py lines 784-822): reverse the batch last-to-first. -/
def undo_actions (fs : Fs) (actions : List Action) (app : Bool) :
    Option (List Action × Fs) :=
  undoGo app actions.reverse [] fs

/-! ### Router state and the undo endpoint (router.py lines 333-370) -/

/-- Server-side state: the filesystem and the module-level _ACTION_HISTORY
list of applied batches. -/
structure AppState where
  fs : Fs
  history : List (List Action)
deriving DecidableEq, Repr

/-- get_action_history (core.py lines 49-51): returns a COPY of the history
list; mutations of the returned list do not reach _ACTION_HISTORY. -/
def get_action_history (st : AppState) : List (List Action) := st.history

instance exceptDecEq {ε α : Type} [DecidableEq ε] [DecidableEq α] :
    DecidableEq (Except ε α) := fun a b =>
  match a, b with
  | Except.ok x, Except.ok y =>
    if h : x = y then isTrue (by rw [h])
    else isFalse (fun hc => h (by cases hc; rfl))
  | Except.error x, Except.error y =>
    if h : x = y then isTrue (by rw [h])
    else isFalse (fun hc => h (by cases hc; rfl))
  | Except.ok _, Except.error _ => isFalse (fun hc => by cases hc)
  | Except.error _, Except.ok _ => isFalse (fun hc => by cases hc)

/-- The undo endpoint (router.py lines 333-370).  It reads a copy of the
history, validates the batch index, reverses the selected batch, and then
pops the batch from the local copy only: the pop mutates the list returned
by get_action_history, not _ACTION_HISTORY itself, so the stored history of
the returned state is st.history unchanged.  Raised exceptions and HTTP
rejections are modelled as error values. -/
def undoEndpoint (st : AppState) (batchIndex : Option Int) (app : Bool) :
    Except String (List Action × AppState) :=
  let history := get_action_history st
  if history.isEmpty then Except.error "No actions in history to undo"
  else
    let bi : Int := batchIndex.getD ((history.length : Int) - 1)
    if bi < 0 || (history.length : Int) ≤ bi then
      Except.error "Invalid batch index"
    else
      match history[bi.toNat]? with
      | none => Except.error "Invalid batch index"
      | some batch =>
        match undo_actions st.fs batch app with
        | none => Except.error "Internal Server Error"
        | some (ras, fs') =>
          Except.ok (ras, { fs := fs', history := st.history })

/-! ### Proof scaffolding: computed destinations and rename plans

These two definitions restate, per scanned file, the destination the
commands compute; they are used to phrase the no-collision provisos of the
dry-run equivalence results. -/

/-- Destination path cmd_organize computes for one scanned file before
collision resolution: base slash bucket-key slash name. -/
def orgDest (env : Env) (fs0 : Fs) (byMode : String) (base : List String)
    (f : FPath) : FPath :=
  if byMode = "ext" then ⟨base ++ [extKey f.name], f.name⟩
  else
    match fsFind fs0 f with
    | some d =>
      ⟨base ++ [if byMode = "date" then env.dateKey d.mtime else env.monthKey d.mtime],
        f.name⟩
    | none => f

/-- Planned renames of cmd_rename: the files it will touch paired with
their computed new names, threading the enumeration counter exactly as
renGo does. -/
def renamePlan (sub : Option (String → String)) (enumFiles : Bool) (step : Int)
    (width : Nat) (pre suf : String) (lower upper sanitize : Bool)
    (extFilter : Option String) : List FPath → Int → List (FPath × String)
  | [], _ => []
  | f :: rest, i =>
    if extSkip extFilter f.name then
      renamePlan sub enumFiles step width pre suf lower upper sanitize extFilter rest i
    else
      let s := stemSuffix f.name
      let newName := renameNewName sub enumFiles i width pre suf lower upper
        sanitize s.1 s.2
      let i' := if enumFiles then i + step else i
      if newName ≠ f.name then
        (f, newName) ::
          renamePlan sub enumFiles step width pre suf lower upper sanitize extFilter
            rest i'
      else
        renamePlan sub enumFiles step width pre suf lower upper sanitize extFilter
          rest i'

/-- Dry-run outcome of cmd_clean for one scanned file: none when the file
vanished or the filters reject it, else the action the clean loop emits. -/
def cleanDryAct (env : Env) (ol lg : Option Int) (now : Int)
    (ad : Option (List String)) (ut dp : Bool) (fs0 : Fs) (f : FPath) :
    Option Action :=
  match fsFind fs0 f with
  | none => none
  | some d =>
    if cleanMatches ol lg now d then
      some (match ad with
        | some adir => ⟨"move", f, some (uniquePath fs0 ⟨adir, f.name⟩), []⟩
        | none =>
          ⟨if dp then "delete"
            else if ut && env.hasTrash then "trash" else "delete", f, none, []⟩)
    else none

/-! ### Concrete instances used by counterexamples and witnesses -/

/-- Concrete environment: no pattern ever matches, trash is available, the
digest of a content is the content itself (standing for a collision-free
hash on the tiny contents used below), and the pool completes hashes in
submission order. -/
def envId : Env where
  pm := fun _ _ => false
  dateKey := fun _ => ""
  monthKey := fun _ => ""
  hasTrash := true
  hashOf := fun _ _ c => some c
  sched := id

/-- Environment in which hashing one specific file raises. -/
def envFailOn (bad : FPath) : Env :=
  { envId with hashOf := fun _ f c => if f = bad then none else some c }

/-- Two distinct files with the same name in different subdirectories of r,
the collision scenario of the dry-run counterexample. -/
def fsOrgPair : Fs :=
  [(⟨["r", "x"], "a.txt"⟩, ⟨"1", 1, 0⟩), (⟨["r", "y"], "a.txt"⟩, ⟨"2", 1, 0⟩)]

/-- The duplicate-detection scenario: a.txt and b.txt with identical bytes
and c.txt with a different size. -/
def fsDupes3 : Fs :=
  [(⟨["r"], "a.txt"⟩, ⟨"x", 1, 0⟩), (⟨["r"], "b.txt"⟩, ⟨"x", 1, 0⟩),
   (⟨["r"], "c.txt"⟩, ⟨"yy", 2, 0⟩)]

/-- Server state holding one applied move batch whose file sits at the
recorded destination. -/
def stUndo : AppState :=
  ⟨[(⟨["r", "txt"], "f.txt"⟩, ⟨"x", 1, 0⟩)],
   [[⟨"move", ⟨["r"], "f.txt"⟩, some ⟨["r", "txt"], "f.txt"⟩, []⟩]]⟩

/-- One file under r, used to exercise the no-collision dry-run equality. -/
def fsSingle : Fs := [(⟨["r"], "a.txt"⟩, ⟨"1", 1, 0⟩)]

/-- Two same-named files in different directories, for the collision-safety
witness. -/
def fsPair : Fs :=
  [(⟨["a"], "f.txt"⟩, ⟨"1", 1, 0⟩), (⟨["b"], "f.txt"⟩, ⟨"2", 1, 0⟩)]

/-- File whose hashing fails in the hash-failure witness. -/
def pBad : FPath := ⟨["r"], "bad.txt"⟩

/-- Two identical files plus a same-sized file whose hash raises. -/
def fsHashFail : Fs :=
  [(⟨["r"], "a.txt"⟩, ⟨"x", 1, 0⟩), (⟨["r"], "b.txt"⟩, ⟨"x", 1, 0⟩),
   (pBad, ⟨"z", 1, 0⟩)]

/-- Undo scenario with an occupant: a.txt was renamed to b.txt (the recorded
action) and a new file has since been created at a.txt. -/
def fsOccupied : Fs :=
  [(⟨["r"], "b.txt"⟩, ⟨"old", 3, 0⟩), (⟨["r"], "a.txt"⟩, ⟨"new", 3, 0⟩)]

/-! ## Lemmas and theorems -/

theorem fsFind_append (fs fs' : Fs) (p : FPath) :
    fsFind (fs ++ fs') p = ((fsFind fs p).or (fsFind fs' p)) := by
  induction fs with
  | nil => simp [fsFind]
  | cons e rest ih =>
    by_cases h : e.1 = p <;> simp [fsFind, h, ih]

theorem fsFind_erase_self (fs : Fs) (p : FPath) : fsFind (fsErase fs p) p = none := by
  induction fs with
  | nil => rfl
  | cons e rest ih =>
    by_cases h : e.1 = p <;> simp [fsErase, fsFind, h, ih]

theorem fsFind_erase_ne (fs : Fs) (p q : FPath) (h : q ≠ p) :
    fsFind (fsErase fs p) q = fsFind fs q := by
  induction fs with
  | nil => rfl
  | cons e rest ih =>
    by_cases he : e.1 = p
    · have hne : p ≠ q := fun hq => h hq.symm
      simp [fsErase, fsFind, he, hne, ih]
    · by_cases hq : e.1 = q <;> simp [fsErase, fsFind, he, hq, h, ih]

theorem fsFind_insert_self (fs : Fs) (p : FPath) (d : FileData) :
    fsFind (fsInsert fs p d) p = some d := by
  simp [fsInsert, fsFind_append, fsFind_erase_self, fsFind]

theorem fsFind_insert_ne (fs : Fs) (p q : FPath) (d : FileData) (h : q ≠ p) :
    fsFind (fsInsert fs p d) q = fsFind fs q := by
  have hne : ¬ (p = q) := fun hq => h hq.symm
  rw [fsInsert, fsFind_append, fsFind_erase_ne fs p q h]
  simp [fsFind, hne]

theorem fsExists_iff_mem_keys (fs : Fs) (p : FPath) :
    fsExists fs p = true ↔ p ∈ fsKeys fs := by
  induction fs with
  | nil => simp [fsExists, fsFind, fsKeys]
  | cons e rest ih =>
    by_cases h : e.1 = p
    · simp [fsExists, fsFind, fsKeys, h]
    · have hne : p ≠ e.1 := fun hq => h hq.symm
      simp only [fsExists, fsFind, h, if_neg, fsKeys, List.map_cons, List.mem_cons]
      constructor
      · intro hs
        exact Or.inr (ih.mp hs)
      · rintro (hpe | hm)
        · exact absurd hpe hne
        · exact ih.mpr hm

theorem fsFind_isSome_of_mem_keys (fs : Fs) (p : FPath) (h : p ∈ fsKeys fs) :
    (fsFind fs p).isSome = true :=
  (fsExists_iff_mem_keys fs p).mpr h

theorem fsFind_ne_of_exists_ne (fs : Fs) (p q : FPath)
    (hp : (fsFind fs p).isSome = true) (hq : fsExists fs q = false) : p ≠ q := by
  intro h
  rw [h] at hp
  simp [fsExists] at hq
  rw [hq] at hp
  simp at hp

theorem mk_append_mk (a b : List Char) :
    String.mk a ++ String.mk b = String.mk (a ++ b) := rfl

theorem stemSuffix_append (name : String) :
    (stemSuffix name).1 ++ (stemSuffix name).2 = name := by
  unfold stemSuffix
  cases h : rfindDot name.data with
  | none =>
    show name ++ "" = name
    cases name with
    | mk data =>
      show String.mk (data ++ []) = String.mk data
      rw [List.append_nil]
  | some i =>
    by_cases hc : 0 < i ∧ i < name.data.length - 1
    · simp only [hc, if_pos]
      cases name with
      | mk data =>
        show String.mk (List.take i data ++ List.drop i data) = String.mk data
        rw [List.take_append_drop]
    · simp only [hc, if_neg]
      show name ++ "" = name
      cases name with
      | mk data =>
        show String.mk (data ++ []) = String.mk data
        rw [List.append_nil]

theorem natToDigitsAux_irrel (fuel fuel' n : Nat) (h : n ≤ fuel) (h' : n ≤ fuel') :
    natToDigitsAux fuel n = natToDigitsAux fuel' n := by
  induction fuel generalizing fuel' n with
  | zero =>
    have hn : n = 0 := by omega
    subst hn
    cases fuel' with
    | zero => rfl
    | succ f => simp [natToDigitsAux]
  | succ fuel ih =>
    by_cases hn : n < 10
    · cases fuel' with
      | zero =>
        have : n = 0 := by omega
        subst this
        simp [natToDigitsAux]
      | succ f => simp [natToDigitsAux, hn]
    · cases fuel' with
      | zero => omega
      | succ f =>
        simp only [natToDigitsAux, hn, if_neg, if_false]
        have hd : n / 10 ≤ fuel := by
          have := Nat.div_lt_self (show 0 < n by omega) (show 1 < 10 by omega)
          omega
        have hd' : n / 10 ≤ f := by
          have := Nat.div_lt_self (show 0 < n by omega) (show 1 < 10 by omega)
          omega
        rw [ih f (n / 10) hd hd']

theorem natToDigits_eq_aux (fuel n : Nat) (h : n ≤ fuel) :
    natToDigits n = natToDigitsAux fuel n :=
  natToDigitsAux_irrel n fuel n (Nat.le_refl n) h

theorem natToDigits_ne_nil (n : Nat) : natToDigits n ≠ [] := by
  unfold natToDigits
  cases n with
  | zero => simp [natToDigitsAux]
  | succ m =>
    simp only [natToDigitsAux]
    by_cases h : m + 1 < 10 <;> simp [h]

theorem digitChar_isDigit (m : Nat) (h : m < 10) : (Nat.digitChar m).isDigit = true := by
  interval_cases m <;> decide

theorem digitChar_inj_lt (m n : Nat) (hm : m < 10) (hn : n < 10)
    (h : Nat.digitChar m = Nat.digitChar n) : m = n := by
  interval_cases m <;> interval_cases n <;> simp_all <;> revert h <;> decide

theorem isDigit_ne_rparen (c : Char) (h : c.isDigit = true) : c ≠ ')' := by
  intro hc
  subst hc
  simp [Char.isDigit] at h

theorem natToDigits_length_pos (n : Nat) : 0 < (natToDigits n).length :=
  List.length_pos.mpr (natToDigits_ne_nil n)

theorem natToDigits_lt_ten (n : Nat) (h : n < 10) : natToDigits n = [Nat.digitChar n] := by
  unfold natToDigits
  cases n with
  | zero => rfl
  | succ m => simp [natToDigitsAux, h]

theorem natToDigits_ge_ten (n : Nat) (h : ¬ n < 10) :
    natToDigits n = natToDigits (n / 10) ++ [Nat.digitChar (n % 10)] := by
  have hdiv : n / 10 ≤ n - 1 := by
    have := Nat.div_lt_self (show 0 < n by omega) (show 1 < 10 by omega)
    omega
  cases n with
  | zero => omega
  | succ m =>
    show natToDigitsAux (m + 1) (m + 1) = _
    simp only [natToDigitsAux, h, if_neg, if_false]
    rw [natToDigits_eq_aux m ((m + 1) / 10) (by omega)]

theorem mem_natToDigits_isDigit (n : Nat) : ∀ c ∈ natToDigits n, c.isDigit = true := by
  induction n using Nat.strong_induction_on with
  | _ n ih =>
    intro c hc
    by_cases h : n < 10
    · rw [natToDigits_lt_ten n h] at hc
      simp at hc
      subst hc
      exact digitChar_isDigit n h
    · rw [natToDigits_ge_ten n h] at hc
      simp at hc
      rcases hc with hc | hc
      · exact ih (n / 10) (Nat.div_lt_self (by omega) (by omega)) c hc
      · subst hc
        exact digitChar_isDigit _ (Nat.mod_lt _ (by omega))

theorem natToDigits_inj (m n : Nat) (h : natToDigits m = natToDigits n) : m = n := by
  induction m using Nat.strong_induction_on generalizing n with
  | _ m ih =>
    by_cases hm : m < 10 <;> by_cases hn : n < 10
    · rw [natToDigits_lt_ten m hm, natToDigits_lt_ten n hn] at h
      exact digitChar_inj_lt m n hm hn (by simpa using h)
    · rw [natToDigits_lt_ten m hm, natToDigits_ge_ten n hn] at h
      have hlen := congrArg List.length h
      rw [List.length_append] at hlen
      simp only [List.length_cons, List.length_nil] at hlen
      have := natToDigits_length_pos (n / 10)
      omega
    · rw [natToDigits_ge_ten m hm, natToDigits_lt_ten n hn] at h
      have hlen := congrArg List.length h
      rw [List.length_append] at hlen
      simp only [List.length_cons, List.length_nil] at hlen
      have := natToDigits_length_pos (m / 10)
      omega
    · rw [natToDigits_ge_ten m hm, natToDigits_ge_ten n hn] at h
      have h2 := congrArg List.reverse h
      simp at h2
      obtain ⟨hdig, hrest⟩ := h2
      have hdiv : m / 10 = n / 10 :=
        ih (m / 10) (Nat.div_lt_self (by omega) (by omega)) (n / 10)
          (by rw [← List.reverse_inj] at hrest ⊢; exact hrest)
      have hmod : m % 10 = n % 10 :=
        digitChar_inj_lt _ _ (Nat.mod_lt _ (by omega)) (Nat.mod_lt _ (by omega)) hdig
      omega

theorem probeName_data (stem sfx : String) (i : Nat) :
    (probeName stem sfx i).data =
      stem.data ++ ' ' :: '(' :: (natToDigits i ++ ')' :: sfx.data) := by
  cases stem with
  | mk a =>
    cases sfx with
    | mk b =>
      show a ++ [' ', '('] ++ natToDigits i ++ [')'] ++ b =
        a ++ ' ' :: '(' :: (natToDigits i ++ ')' :: b)
      simp

theorem append_rparen_inj (a b r : List Char)
    (ha : ')' ∉ a) (hb : ')' ∉ b) (h : a ++ ')' :: r = b ++ ')' :: r) : a = b := by
  induction a generalizing b with
  | nil =>
    cases b with
    | nil => rfl
    | cons c cs =>
      rw [List.nil_append, List.cons_append] at h
      injection h with hc _
      exact absurd (hc.symm ▸ List.mem_cons_self c cs) hb
  | cons c cs ih =>
    cases b with
    | nil =>
      rw [List.nil_append, List.cons_append] at h
      injection h with hc _
      exact absurd (hc ▸ List.mem_cons_self c cs) ha

    | cons c' cs' =>
      rw [List.cons_append, List.cons_append] at h
      injection h with hc hcs
      rw [hc, ih cs' (fun hm => ha (List.mem_cons_of_mem c hm))
        (fun hm => hb (List.mem_cons_of_mem c' hm)) hcs]

theorem probeName_inj (stem sfx : String) (i j : Nat)
    (h : probeName stem sfx i = probeName stem sfx j) : i = j := by
  have hd := congrArg String.data h
  rw [probeName_data, probeName_data] at hd
  have h1 := List.append_cancel_left hd
  simp only [List.cons.injEq, true_and] at h1
  have hdig := append_rparen_inj _ _ _
    (fun hm => isDigit_ne_rparen _ (mem_natToDigits_isDigit i _ hm) rfl)
    (fun hm => isDigit_ne_rparen _ (mem_natToDigits_isDigit j _ hm) rfl) h1
  exact natToDigits_inj i j hdig

theorem probeName_data_length (stem sfx : String) (i : Nat) :
    (probeName stem sfx i).data.length =
      stem.data.length + sfx.data.length + 3 + (natToDigits i).length := by
  rw [probeName_data]
  simp
  omega

theorem probeName_ne_base (stem sfx name : String) (i : Nat)
    (hname : stem ++ sfx = name) : probeName stem sfx i ≠ name := by
  intro h
  have h1 := congrArg (fun s => List.length (String.data s)) h
  simp only [probeName_data_length] at h1
  have h2 : stem.data.length + sfx.data.length = name.data.length := by
    have := congrArg (fun s => List.length (String.data s)) hname
    simp only [String.data_append, List.length_append] at this
    simpa using this
  have := natToDigits_length_pos i
  omega

theorem uniquePathLoop_free (fs : Fs) (parent : List String) (stem sfx : String) :
    ∀ (fuel i : Nat),
      (∃ k, k < fuel ∧
        fsExists fs ⟨parent, probeName stem sfx (i + k)⟩ = false) →
      fsExists fs (uniquePathLoop fs parent stem sfx fuel i) = false := by
  intro fuel
  induction fuel with
  | zero => intro i ⟨k, hk, _⟩; omega
  | succ fuel ih =>
    intro i ⟨k, hk, hfree⟩
    unfold uniquePathLoop
    by_cases hc : fsExists fs ⟨parent, probeName stem sfx i⟩ = true
    · simp only [hc, if_true]
      apply ih
      cases k with
      | zero => simp at hfree; rw [hfree] at hc; simp at hc
      | succ k' =>
        exact ⟨k', by omega, by
          have : i + 1 + k' = i + (k' + 1) := by omega
          rw [this]; exact hfree⟩
    · simp only [Bool.not_eq_true] at hc
      simp [hc]

theorem uniquePathLoop_form (fs : Fs) (parent : List String) (stem sfx : String) :
    ∀ (fuel i : Nat), ∃ k, uniquePathLoop fs parent stem sfx fuel i =
      ⟨parent, probeName stem sfx (i + k)⟩ := by
  intro fuel
  induction fuel with
  | zero => intro i; exact ⟨0, rfl⟩
  | succ fuel ih =>
    intro i
    unfold uniquePathLoop
    by_cases hc : fsExists fs ⟨parent, probeName stem sfx i⟩ = true
    · simp only [hc, if_true]
      obtain ⟨k, hk⟩ := ih (i + 1)
      exact ⟨k + 1, by rw [hk]; congr 2; omega⟩
    · simp only [Bool.not_eq_true] at hc
      exact ⟨0, by simp [hc]⟩

theorem exists_free_probe (fs : Fs) (parent : List String) (stem sfx : String) :
    ∃ k, k < fs.length + 1 ∧
      fsExists fs ⟨parent, probeName stem sfx (1 + k)⟩ = false := by
  by_contra hall
  push_neg at hall
  have hmem : ∀ k < fs.length + 1,
      (⟨parent, probeName stem sfx (1 + k)⟩ : FPath) ∈ fsKeys fs := by
    intro k hk
    have := hall k hk
    rw [← fsExists_iff_mem_keys]
    cases h : fsExists fs ⟨parent, probeName stem sfx (1 + k)⟩
    · exact absurd h this
    · rfl
  set cands : List FPath :=
    (List.range (fs.length + 1)).map
      (fun k => ⟨parent, probeName stem sfx (1 + k)⟩) with hcands
  have hnodup : cands.Nodup := by
    apply List.Nodup.map _ (List.nodup_range _)
    intro a b hab
    have := congrArg FPath.name hab
    simp only at this
    have := probeName_inj stem sfx _ _ this
    omega
  have hsub : cands ⊆ fsKeys fs := by
    intro p hp
    rw [hcands] at hp
    simp only [List.mem_map, List.mem_range] at hp
    obtain ⟨k, hk, rfl⟩ := hp
    exact hmem k hk
  have hle := (List.subperm_of_subset hnodup hsub).length_le
  have hclen : cands.length = fs.length + 1 := by simp [hcands]
  have hklen : (fsKeys fs).length = fs.length := by simp [fsKeys]
  omega

/-- The destination returned by unique_path never exists in the filesystem
it was computed against (the point-in-time guarantee of the spec). -/
theorem uniquePath_fresh (fs : Fs) (dst : FPath) :
    fsExists fs (uniquePath fs dst) = false := by
  unfold uniquePath
  by_cases h : fsExists fs dst = true
  · simp only [h, if_true]
    apply uniquePathLoop_free
    exact exists_free_probe fs dst.dir _ _
  · simp only [Bool.not_eq_true] at h
    simp [h]

theorem uniquePath_of_free (fs : Fs) (dst : FPath) (h : fsExists fs dst = false) :
    uniquePath fs dst = dst := by
  unfold uniquePath
  simp [h]

theorem safe_iter_files_subset_keys (env : Env) (fs : Fs) (root : List String)
    (recursive : Bool) (exclude includePats : List String) :
    ∀ f ∈ safe_iter_files env fs root recursive exclude includePats, f ∈ fsKeys fs := by
  intro f hf
  exact List.mem_of_mem_filter hf

theorem safe_iter_files_nodup (env : Env) (fs : Fs) (root : List String)
    (recursive : Bool) (exclude includePats : List String) (hwf : Fs.WF fs) :
    (safe_iter_files env fs root recursive exclude includePats).Nodup :=
  List.Nodup.filter _ hwf

/-! ### Further facts about the file map -/

theorem fsExists_insert_self (fs : Fs) (p : FPath) (d : FileData) :
    fsExists (fsInsert fs p d) p = true := by
  simp [fsExists, fsFind_insert_self]

theorem fsExists_insert_ne (fs : Fs) (p q : FPath) (d : FileData) (h : q ≠ p) :
    fsExists (fsInsert fs p d) q = fsExists fs q := by
  simp [fsExists, fsFind_insert_ne fs p q d h]

theorem fsExists_erase_false (fs : Fs) (p q : FPath) (h : fsExists fs q = false) :
    fsExists (fsErase fs p) q = false := by
  by_cases hq : q = p
  · subst hq
    simp [fsExists, fsFind_erase_self]
  · simp [fsExists, fsFind_erase_ne fs p q hq]
    simp [fsExists] at h
    simp [h]

theorem fsExists_true_of_find (fs : Fs) (p : FPath) (d : FileData)
    (h : fsFind fs p = some d) : fsExists fs p = true := by
  simp [fsExists, h]

/-! ### Dry runs of the primitive operations -/

theorem move_file_dry (fs : Fs) (src : FPath) (dstDir : List String) :
    move_file fs src dstDir false =
      some (⟨"move", src, some (uniquePath fs ⟨dstDir, src.name⟩), []⟩, fs) := rfl

theorem rename_file_dry (fs : Fs) (src : FPath) (newName : String) :
    rename_file fs src newName false =
      some (⟨"rename", src, some (uniquePath fs ⟨src.dir, newName⟩), []⟩, fs) := rfl

theorem safe_delete_dry (env : Env) (fs : Fs) (p : FPath) (useTrash : Bool) :
    safe_delete env fs p useTrash false =
      some (⟨if useTrash && env.hasTrash then "trash" else "delete", p, none, []⟩,
        fs) := by
  by_cases h : useTrash && env.hasTrash <;> simp [safe_delete, h]

/-! ### Dry runs of the command loops leave the filesystem unchanged -/

theorem orgGo_dry (env : Env) (byMode : String) (base : List String) (fs0 : Fs) :
    ∀ (files : List FPath) (acc : List Action),
      (∀ f ∈ files, (fsFind fs0 f).isSome = true) →
      ∃ as, orgGo env byMode base false files acc fs0 = some (acc ++ as, fs0) := by
  intro files
  induction files with
  | nil => exact fun acc _ => ⟨[], by simp [orgGo]⟩
  | cons f rest ih =>
    intro acc hmem
    have hf := hmem f (List.mem_cons_self f rest)
    obtain ⟨d, hd⟩ := Option.isSome_iff_exists.mp hf
    have hstep : ∃ a, orgStep env byMode base false fs0 f = some (a, fs0) := by
      unfold orgStep
      by_cases hb : byMode = "ext"
      · exact ⟨⟨"move", f,
          some (uniquePath fs0 ⟨base ++ [extKey f.name], f.name⟩), []⟩,
          by rw [if_pos hb, move_file_dry]⟩
      · refine ⟨⟨"move", f, some (uniquePath fs0 ⟨base ++
          [if byMode = "date" then env.dateKey d.mtime else env.monthKey d.mtime],
          f.name⟩), []⟩, ?_⟩
        rw [if_neg hb, hd]
        show move_file fs0 f _ false = _
        rw [move_file_dry]
    obtain ⟨a, ha⟩ := hstep
    obtain ⟨as, has⟩ := ih (acc ++ [a])
      (fun g hg => hmem g (List.mem_cons_of_mem f hg))
    refine ⟨a :: as, ?_⟩
    simp only [orgGo, ha]
    rw [has]
    simp

theorem renGo_dry (sub : Option (String → String)) (enumFiles : Bool)
    (step : Int) (width : Nat) (pre suf : String)
    (lower upper sanitize : Bool) (extFilter : Option String) (fs0 : Fs) :
    ∀ (files : List FPath) (i : Int) (acc : List Action),
      ∃ as, renGo sub enumFiles step width pre suf lower upper sanitize extFilter
        false files i acc fs0 = some (acc ++ as, fs0) := by
  intro files
  induction files with
  | nil => exact fun i acc => ⟨[], by simp [renGo]⟩
  | cons f rest ih =>
    intro i acc
    by_cases hskip : extSkip extFilter f.name
    · obtain ⟨as, has⟩ := ih i acc
      refine ⟨as, ?_⟩
      simp only [renGo]
      rw [if_pos hskip]
      exact has
    · by_cases hnn : renameNewName sub enumFiles i width pre suf lower upper
        sanitize (stemSuffix f.name).1 (stemSuffix f.name).2 ≠ f.name
      · obtain ⟨as, has⟩ := ih (if enumFiles then i + step else i)
          (acc ++ [⟨"rename", f, some (uniquePath fs0 ⟨f.dir, renameNewName sub
            enumFiles i width pre suf lower upper sanitize (stemSuffix f.name).1
            (stemSuffix f.name).2⟩), []⟩])
        refine ⟨(⟨"rename", f, some (uniquePath fs0 ⟨f.dir, renameNewName sub
          enumFiles i width pre suf lower upper sanitize (stemSuffix f.name).1
          (stemSuffix f.name).2⟩), []⟩ : Action) :: as, ?_⟩
        simp only [renGo]
        rw [if_neg hskip, if_pos hnn]
        simp only [rename_file_dry]
        rw [has]
        simp
      · obtain ⟨as, has⟩ := ih (if enumFiles then i + step else i) acc
        refine ⟨as, ?_⟩
        simp only [renGo]
        rw [if_neg hskip, if_neg hnn]
        exact has

theorem cleanGo_dry (env : Env) (ol lg : Option Int) (now : Int)
    (ad : Option (List String)) (ut dp : Bool) (fs0 : Fs) :
    ∀ (files : List FPath) (acc : List Action),
      cleanGo env ol lg now ad ut dp false files acc fs0 =
        some (acc ++ files.filterMap (cleanDryAct env ol lg now ad ut dp fs0),
          fs0) := by
  intro files
  induction files with
  | nil => intro acc; simp [cleanGo]
  | cons f rest ih =>
    intro acc
    cases hfind : fsFind fs0 f with
    | none =>
      simp only [cleanGo, hfind, List.filterMap_cons, cleanDryAct]
      rw [ih acc]
    | some d =>
      by_cases hm : cleanMatches ol lg now d
      · cases ad with
        | some adir =>
          have hstep : cleanStep env (some adir) ut dp false fs0 f =
              some (⟨"move", f, some (uniquePath fs0 ⟨adir, f.name⟩), []⟩, fs0) := by
            simp [cleanStep, move_file_dry]
          have hact : cleanDryAct env ol lg now (some adir) ut dp fs0 f =
              some ⟨"move", f, some (uniquePath fs0 ⟨adir, f.name⟩), []⟩ := by
            simp [cleanDryAct, hfind, hm]
          simp only [cleanGo, hfind]
          rw [if_pos hm]
          simp only [hstep]
          rw [ih, List.filterMap_cons, hact]
          simp
        | none =>
          have hstep : cleanStep env none ut dp false fs0 f =
              some (⟨if dp then "delete"
                else if ut && env.hasTrash then "trash" else "delete",
                f, none, []⟩, fs0) := by
            by_cases hdp : dp
            · simp [cleanStep, hdp, safe_delete_dry]
            · simp [cleanStep, hdp, safe_delete_dry]
          have hact : cleanDryAct env ol lg now none ut dp fs0 f =
              some ⟨if dp then "delete"
                else if ut && env.hasTrash then "trash" else "delete",
                f, none, []⟩ := by
            simp [cleanDryAct, hfind, hm]
          simp only [cleanGo, hfind]
          rw [if_pos hm]
          simp only [hstep]
          rw [ih, List.filterMap_cons, hact]
          simp
      · have hact : cleanDryAct env ol lg now ad ut dp fs0 f = none := by
          simp [cleanDryAct, hfind, hm]
        simp only [cleanGo, hfind]
        rw [if_neg hm, ih acc, List.filterMap_cons, hact]

/-! ### Duplicate detection: hashing entries and buckets -/

theorem mem_parallel_hash (env : Env) (fs : Fs) (files : List FPath)
    (algo : String) (e : FPath × Option String)
    (he : e ∈ parallel_hash_files env fs files algo) :
    e.2 = hashResult env fs algo e.1 := by
  unfold parallel_hash_files at he
  obtain ⟨f, _, hf⟩ := List.mem_map.mp he
  rw [← hf]

theorem addToBucket_mem {β : Type} [DecidableEq β] (C : FPath → β → Prop) :
    ∀ (bs : List (β × List FPath)) (k : β) (x : FPath),
      (∀ b ∈ bs, ∀ f ∈ b.2, C f b.1) → C x k →
      ∀ b ∈ addToBucket bs k x, ∀ f ∈ b.2, C f b.1 := by
  intro bs
  induction bs with
  | nil =>
    intro k x _ hx b hb f hf
    simp [addToBucket] at hb
    subst hb
    simp at hf
    subst hf
    exact hx
  | cons b0 rest ih =>
    intro k x hbs hx b hb f hf
    unfold addToBucket at hb
    by_cases hk : b0.1 = k
    · rw [if_pos hk] at hb
      rcases List.mem_cons.mp hb with hb | hb
      · subst hb
        simp only at hf
        rcases List.mem_append.mp hf with hf | hf
        · exact hbs b0 (List.mem_cons_self _ _) f hf
        · simp at hf
          subst hf
          simpa [hk] using hx
      · exact hbs b (List.mem_cons_of_mem _ hb) f hf
    · rw [if_neg hk] at hb
      rcases List.mem_cons.mp hb with hb | hb
      · subst hb
        exact hbs b0 (List.mem_cons_self _ _) f hf
      · exact ih k x (fun b' hb' => hbs b' (List.mem_cons_of_mem _ hb')) hx b hb f hf

theorem hashFold_mem (C : FPath → String → Prop) :
    ∀ (entries : List (FPath × Option String)) (bs : List (String × List FPath)),
      (∀ b ∈ bs, ∀ f ∈ b.2, C f b.1) →
      (∀ e ∈ entries, ∀ hsh, e.2 = some hsh → C e.1 hsh) →
      ∀ b ∈ entries.foldl
        (fun bs e =>
          match e.2 with
          | some h => addToBucket bs h e.1
          | none => bs) bs,
        ∀ f ∈ b.2, C f b.1 := by
  intro entries
  induction entries with
  | nil => intro bs hbs _ b hb f hf; exact hbs b hb f hf
  | cons e rest ih =>
    intro bs hbs hent b hb f hf
    simp only [List.foldl_cons] at hb
    cases he : e.2 with
    | none =>
      rw [he] at hb
      exact ih bs hbs (fun e' he' => hent e' (List.mem_cons_of_mem _ he')) b hb f hf
    | some h =>
      rw [he] at hb
      exact ih (addToBucket bs h e.1)
        (addToBucket_mem C bs h e.1 hbs (hent e (List.mem_cons_self _ _) h he))
        (fun e' he' => hent e' (List.mem_cons_of_mem _ he')) b hb f hf

theorem dupesByHash_mem (entries : List (FPath × Option String))
    (b : String × List FPath) (hb : b ∈ dupesByHash entries) :
    ∀ f ∈ b.2, (f, some b.1) ∈ entries := by
  intro f hf
  exact hashFold_mem (fun x k => (x, some k) ∈ entries) entries []
    (by intro b' hb' _ _; simp at hb')
    (by
      intro e he hsh hhsh
      have : e = (e.1, some hsh) := by
        cases e with
        | mk e1 e2 => simp at hhsh; rw [hhsh]
      rw [← this]
      exact he)
    b hb f hf

theorem bucket_find_isSome (env : Env) (fs0 : Fs) (files : List FPath)
    (algo : String) (b : String × List FPath)
    (hb : b ∈ dupesByHash (parallel_hash_files env fs0 files algo)) :
    ∀ f ∈ b.2, (fsFind fs0 f).isSome = true := by
  intro f hf
  have hmem := dupesByHash_mem _ b hb f hf
  have hval := mem_parallel_hash env fs0 files algo (f, some b.1) hmem
  simp only at hval
  unfold hashResult at hval
  cases hfind : fsFind fs0 f with
  | none => rw [hfind] at hval; exact absurd hval.symm (by simp)
  | some d => rfl

/-! ### Duplicate detection: dry runs and apply-independence of list mode -/

theorem dupeStep_dry (env : Env) (action : String) (ad : Option (List String))
    (keep : FPath) (fs : Fs) (f : FPath) :
    ∃ a, dupeStep env action ad keep false fs f = some (a, fs) := by
  unfold dupeStep
  by_cases h1 : action = "list"
  · rw [if_pos h1]; exact ⟨_, rfl⟩
  · rw [if_neg h1]
    by_cases h2 : action = "trash"
    · rw [if_pos h2, safe_delete_dry]; exact ⟨_, rfl⟩
    · rw [if_neg h2]
      by_cases h3 : action = "delete"
      · rw [if_pos h3, safe_delete_dry]; exact ⟨_, rfl⟩
      · rw [if_neg h3]
        by_cases h4 : action = "archive"
        · rw [if_pos h4]
          cases ad with
          | some adir =>
            refine ⟨⟨"move", f, some (uniquePath fs ⟨adir, f.name⟩), []⟩, ?_⟩
            show move_file fs f adir false = _
            rw [move_file_dry]
          | none => exact ⟨_, rfl⟩
        · rw [if_neg h4]; exact ⟨_, rfl⟩

theorem dupeActsGo_dry (env : Env) (action : String) (ad : Option (List String))
    (keep : FPath) (fs0 : Fs) :
    ∀ (dups : List FPath) (acc : List Action),
      ∃ as, dupeActsGo env action ad keep false dups acc fs0 =
        some (acc ++ as, fs0) := by
  intro dups
  induction dups with
  | nil => exact fun acc => ⟨[], by simp [dupeActsGo]⟩
  | cons f rest ih =>
    intro acc
    obtain ⟨a, ha⟩ := dupeStep_dry env action ad keep fs0 f
    obtain ⟨as, has⟩ := ih (acc ++ [a])
    refine ⟨a :: as, ?_⟩
    simp only [dupeActsGo, ha]
    rw [has]
    simp

theorem dupeActsGo_list (env : Env) (ad : Option (List String)) (keep : FPath)
    (app : Bool) :
    ∀ (dups : List FPath) (acc : List Action) (fs : Fs),
      dupeActsGo env "list" ad keep app dups acc fs =
        some (acc ++ dups.map
          (fun f => ⟨"dupe", f, none, [("kept", pathString keep)]⟩), fs) := by
  intro dups
  induction dups with
  | nil => intro acc fs; simp [dupeActsGo]
  | cons f rest ih =>
    intro acc fs
    have hstep : dupeStep env "list" ad keep app fs f =
        some (⟨"dupe", f, none, [("kept", pathString keep)]⟩, fs) := by
      simp [dupeStep]
    simp only [dupeActsGo, hstep]
    rw [ih]
    simp

theorem dupesGo_dry (env : Env) (algo action : String)
    (ad : Option (List String)) (fs0 : Fs) :
    ∀ (buckets : List (String × List FPath)) (gs : List DupeGroup),
      (∀ b ∈ buckets, ∀ f ∈ b.2, (fsFind fs0 f).isSome = true) →
      ∃ gs', dupesGo env algo action ad false buckets gs fs0 =
        some (gs ++ gs', fs0) := by
  intro buckets
  induction buckets with
  | nil => exact fun gs _ => ⟨[], by simp [dupesGo]⟩
  | cons b rest ih =>
    intro gs hmem
    obtain ⟨h, files⟩ := b
    by_cases hlen : files.length < 2
    · obtain ⟨gs', hgs⟩ := ih gs (fun b' hb' => hmem b' (List.mem_cons_of_mem _ hb'))
      refine ⟨gs', ?_⟩
      simp only [dupesGo]
      rw [if_pos hlen]
      exact hgs
    · cases files with
      | nil => simp at hlen
      | cons f0 dups =>
        have hf0 := hmem (h, f0 :: dups) (List.mem_cons_self _ _) f0
          (List.mem_cons_self _ _)
        obtain ⟨d, hd⟩ := Option.isSome_iff_exists.mp hf0
        obtain ⟨acts, hacts⟩ := dupeActsGo_dry env action ad f0 fs0 dups []
        simp only [List.nil_append] at hacts
        obtain ⟨gs', hgs⟩ :=
          ih (gs ++ [⟨h, algo, d.size, dups.length + 1, f0, dups, acts, none⟩])
            (fun b' hb' => hmem b' (List.mem_cons_of_mem _ hb'))
        refine ⟨⟨h, algo, d.size, dups.length + 1, f0, dups, acts, none⟩ :: gs', ?_⟩
        simp only [dupesGo]
        rw [if_neg hlen]
        simp only [hd, hacts]
        rw [hgs]
        simp

theorem dupesGo_list_app (env : Env) (algo : String) (ad : Option (List String))
    (app : Bool) :
    ∀ (buckets : List (String × List FPath)) (gs : List DupeGroup) (fs : Fs),
      dupesGo env algo "list" ad app buckets gs fs =
        dupesGo env algo "list" ad false buckets gs fs := by
  intro buckets
  induction buckets with
  | nil => intro gs fs; rfl
  | cons b rest ih =>
    intro gs fs
    obtain ⟨h, files⟩ := b
    by_cases hlen : files.length < 2
    · simp only [dupesGo]
      rw [if_pos hlen, if_pos hlen]
      exact ih gs fs
    · cases files with
      | nil => simp at hlen
      | cons f0 dups =>
        simp only [dupesGo]
        rw [if_neg hlen, if_neg hlen]
        cases hd : fsFind fs f0 with
        | none => rfl
        | some d =>
          simp only [dupeActsGo_list]
          exact ih _ fs

/-! ### Apply-mode forms of the primitive operations under freshness -/

theorem move_file_apply (fs : Fs) (src : FPath) (dstDir : List String)
    (d : FileData) (hsrc : fsFind fs src = some d)
    (hfr : fsExists fs ⟨dstDir, src.name⟩ = false) :
    move_file fs src dstDir true =
      some (⟨"move", src, some ⟨dstDir, src.name⟩, []⟩,
        fsInsert (fsErase fs src) ⟨dstDir, src.name⟩ d) := by
  unfold move_file
  rw [uniquePath_of_free _ _ hfr, hsrc]
  rfl

theorem rename_file_apply (fs : Fs) (src : FPath) (newName : String)
    (d : FileData) (hsrc : fsFind fs src = some d)
    (hfr : fsExists fs ⟨src.dir, newName⟩ = false) :
    rename_file fs src newName true =
      some (⟨"rename", src, some ⟨src.dir, newName⟩, []⟩,
        fsInsert (fsErase fs src) ⟨src.dir, newName⟩ d) := by
  unfold rename_file
  rw [uniquePath_of_free _ _ hfr, hsrc]
  rfl

theorem safe_delete_apply (env : Env) (fs : Fs) (p : FPath) (useTrash : Bool)
    (d : FileData) (h : fsFind fs p = some d) :
    safe_delete env fs p useTrash true =
      some (⟨if useTrash && env.hasTrash then "trash" else "delete", p, none, []⟩,
        fsErase fs p) := by
  by_cases h' : useTrash && env.hasTrash <;> simp [safe_delete, h', h]

/-! ### The per-file destination of cmd_organize -/

theorem orgDest_ext (env : Env) (fs0 : Fs) (byMode : String) (base : List String)
    (f : FPath) (hb : byMode = "ext") :
    orgDest env fs0 byMode base f = ⟨base ++ [extKey f.name], f.name⟩ := by
  simp [orgDest, hb]

theorem orgDest_time (env : Env) (fs0 : Fs) (byMode : String) (base : List String)
    (f : FPath) (d : FileData) (hb : ¬ byMode = "ext")
    (hd : fsFind fs0 f = some d) :
    orgDest env fs0 byMode base f =
      ⟨base ++ [if byMode = "date" then env.dateKey d.mtime else env.monthKey d.mtime],
        f.name⟩ := by
  simp [orgDest, hb, hd]

theorem scan_find_isSome (env : Env) (fs : Fs) (root : List String)
    (recursive : Bool) (exclude includePats : List String) :
    ∀ f ∈ safe_iter_files env fs root recursive exclude includePats,
      (fsFind fs f).isSome = true := fun f hf =>
  fsFind_isSome_of_mem_keys fs f
    (safe_iter_files_subset_keys env fs root recursive exclude includePats f hf)

theorem renamePlan_src_mem (sub : Option (String → String)) (enumFiles : Bool)
    (step : Int) (width : Nat) (pre suf : String)
    (lower upper sanitize : Bool) (extFilter : Option String) :
    ∀ (files : List FPath) (i : Int),
      ∀ q ∈ renamePlan sub enumFiles step width pre suf lower upper sanitize
        extFilter files i, q.1 ∈ files := by
  intro files
  induction files with
  | nil => intro i q hq; simp [renamePlan] at hq
  | cons f rest ih =>
    intro i q hq
    unfold renamePlan at hq
    by_cases hskip : extSkip extFilter f.name
    · rw [if_pos hskip] at hq
      exact List.mem_cons_of_mem f (ih i q hq)
    · rw [if_neg hskip] at hq
      simp only at hq
      by_cases hnn : renameNewName sub enumFiles i width pre suf lower upper
        sanitize (stemSuffix f.name).1 (stemSuffix f.name).2 ≠ f.name
      · rw [if_pos hnn] at hq
        rcases List.mem_cons.mp hq with hq | hq
        · rw [hq]
          exact List.mem_cons_self f rest
        · exact List.mem_cons_of_mem f (ih _ q hq)
      · rw [if_neg hnn] at hq
        exact List.mem_cons_of_mem f (ih _ q hq)

/-! ### Apply equals dry run for cmd_organize under a no-collision proviso -/

theorem orgGo_apply_eq (env : Env) (byMode : String) (base : List String)
    (fs0 : Fs) :
    ∀ (files : List FPath) (fsCur : Fs) (acc : List Action),
      files.Nodup →
      (∀ f ∈ files, fsFind fsCur f = fsFind fs0 f ∧ (fsFind fs0 f).isSome = true) →
      (∀ f ∈ files, fsExists fsCur (orgDest env fs0 byMode base f) = false ∧
        fsExists fs0 (orgDest env fs0 byMode base f) = false) →
      (files.map (orgDest env fs0 byMode base)).Nodup →
      ∃ as fsEnd,
        orgGo env byMode base true files acc fsCur = some (acc ++ as, fsEnd) ∧
        orgGo env byMode base false files acc fs0 = some (acc ++ as, fs0) := by
  intro files
  induction files with
  | nil =>
    exact fun fsCur acc _ _ _ _ =>
      ⟨[], fsCur, by simp [orgGo], by simp [orgGo]⟩
  | cons f rest ih =>
    intro fsCur acc hnd hfind hfresh hdnd
    have hfindf := hfind f (List.mem_cons_self f rest)
    have hfindrest := fun g hg => hfind g (List.mem_cons_of_mem f hg)
    obtain ⟨d, hd0⟩ := Option.isSome_iff_exists.mp hfindf.2
    have hdc : fsFind fsCur f = some d := by rw [hfindf.1]; exact hd0
    obtain ⟨hfrC, hfrO⟩ := hfresh f (List.mem_cons_self f rest)
    have hstepT : orgStep env byMode base true fsCur f =
        some (⟨"move", f, some (orgDest env fs0 byMode base f), []⟩,
          fsInsert (fsErase fsCur f) (orgDest env fs0 byMode base f) d) := by
      unfold orgStep
      by_cases hb : byMode = "ext"
      · have hdst := orgDest_ext env fs0 byMode base f hb
        rw [hdst] at hfrC ⊢
        rw [if_pos hb, move_file_apply fsCur f _ d hdc hfrC]
      · have hdst := orgDest_time env fs0 byMode base f d hb hd0
        rw [if_neg hb, hdc]
        show move_file fsCur f _ true = _
        rw [hdst] at hfrC ⊢
        rw [move_file_apply fsCur f _ d hdc hfrC]
    have hstepF : orgStep env byMode base false fs0 f =
        some (⟨"move", f, some (orgDest env fs0 byMode base f), []⟩, fs0) := by
      unfold orgStep
      by_cases hb : byMode = "ext"
      · have hdst := orgDest_ext env fs0 byMode base f hb
        rw [if_pos hb, move_file_dry, uniquePath_of_free fs0 _ (hdst ▸ hfrO), ← hdst]
      · have hdst := orgDest_time env fs0 byMode base f d hb hd0
        rw [if_neg hb, hd0]
        show move_file fs0 f _ false = _
        rw [move_file_dry, uniquePath_of_free fs0 _ (hdst ▸ hfrO), ← hdst]
    have hnd' := (List.nodup_cons.mp hnd).2
    have hfnotin := (List.nodup_cons.mp hnd).1
    have hdne : ∀ g ∈ rest, g ≠ orgDest env fs0 byMode base f := by
      intro g hg
      have hgf := hfindrest g hg
      exact fsFind_ne_of_exists_ne fsCur g _ (by rw [hgf.1]; exact hgf.2) hfrC
    have hmapnd := hdnd
    rw [List.map_cons, List.nodup_cons] at hmapnd
    obtain ⟨hdestf_notin, hdndtail⟩ := hmapnd
    have hfind' : ∀ g ∈ rest,
        fsFind (fsInsert (fsErase fsCur f) (orgDest env fs0 byMode base f) d) g =
          fsFind fs0 g ∧ (fsFind fs0 g).isSome = true := by
      intro g hg
      have hgf := hfindrest g hg
      have hgne : g ≠ f := fun h => hfnotin (h ▸ hg)
      rw [fsFind_insert_ne _ _ _ _ (hdne g hg), fsFind_erase_ne _ _ _ hgne]
      exact hgf
    have hfresh' : ∀ g ∈ rest,
        fsExists (fsInsert (fsErase fsCur f) (orgDest env fs0 byMode base f) d)
          (orgDest env fs0 byMode base g) = false ∧
        fsExists fs0 (orgDest env fs0 byMode base g) = false := by
      intro g hg
      have hgfr := hfresh g (List.mem_cons_of_mem f hg)
      have hne : orgDest env fs0 byMode base g ≠ orgDest env fs0 byMode base f := by
        intro h
        exact hdestf_notin (h ▸ List.mem_map_of_mem (orgDest env fs0 byMode base) hg)
      rw [fsExists_insert_ne _ _ _ _ hne]
      exact ⟨fsExists_erase_false _ _ _ hgfr.1, hgfr.2⟩
    have hdnd' : (rest.map (orgDest env fs0 byMode base)).Nodup := hdndtail
    obtain ⟨as, fsEnd, hT, hF⟩ := ih
      (fsInsert (fsErase fsCur f) (orgDest env fs0 byMode base f) d)
      (acc ++ [⟨"move", f, some (orgDest env fs0 byMode base f), []⟩])
      hnd' hfind' hfresh' hdnd'
    refine ⟨⟨"move", f, some (orgDest env fs0 byMode base f), []⟩ :: as, fsEnd,
      ?_, ?_⟩
    · simp only [orgGo, hstepT]
      rw [hT]
      simp
    · simp only [orgGo, hstepF]
      rw [hF]
      simp

/-! ### Apply equals dry run for cmd_rename under a no-collision proviso -/

theorem renGo_apply_eq (sub : Option (String → String)) (enumFiles : Bool)
    (step : Int) (width : Nat) (pre suf : String)
    (lower upper sanitize : Bool) (extFilter : Option String) (fs0 : Fs) :
    ∀ (files : List FPath) (i : Int) (fsCur : Fs) (acc : List Action),
      files.Nodup →
      (∀ q ∈ renamePlan sub enumFiles step width pre suf lower upper sanitize
          extFilter files i,
        fsFind fsCur q.1 = fsFind fs0 q.1 ∧ (fsFind fs0 q.1).isSome = true) →
      (∀ q ∈ renamePlan sub enumFiles step width pre suf lower upper sanitize
          extFilter files i,
        fsExists fsCur ⟨q.1.dir, q.2⟩ = false ∧
          fsExists fs0 ⟨q.1.dir, q.2⟩ = false) →
      ((renamePlan sub enumFiles step width pre suf lower upper sanitize extFilter
        files i).map (fun q => (⟨q.1.dir, q.2⟩ : FPath))).Nodup →
      ∃ as fsEnd,
        renGo sub enumFiles step width pre suf lower upper sanitize extFilter true
          files i acc fsCur = some (acc ++ as, fsEnd) ∧
        renGo sub enumFiles step width pre suf lower upper sanitize extFilter false
          files i acc fs0 = some (acc ++ as, fs0) := by
  intro files
  induction files with
  | nil =>
    exact fun i fsCur acc _ _ _ _ =>
      ⟨[], fsCur, by simp [renGo], by simp [renGo]⟩
  | cons f rest ih =>
    intro i fsCur acc hnd hfind hfresh hdnd
    have hnd' := (List.nodup_cons.mp hnd).2
    have hfnotin := (List.nodup_cons.mp hnd).1
    by_cases hskip : extSkip extFilter f.name
    · have hplan : renamePlan sub enumFiles step width pre suf lower upper sanitize
          extFilter (f :: rest) i =
          renamePlan sub enumFiles step width pre suf lower upper sanitize
            extFilter rest i := by
        conv_lhs => unfold renamePlan
        rw [if_pos hskip]
      rw [hplan] at hfind hfresh hdnd
      obtain ⟨as, fsEnd, hT, hF⟩ := ih i fsCur acc hnd' hfind hfresh hdnd
      refine ⟨as, fsEnd, ?_, ?_⟩
      · simp only [renGo]
        rw [if_pos hskip]
        exact hT
      · simp only [renGo]
        rw [if_pos hskip]
        exact hF
    · by_cases hnn : renameNewName sub enumFiles i width pre suf lower upper
        sanitize (stemSuffix f.name).1 (stemSuffix f.name).2 ≠ f.name
      · have hplan : renamePlan sub enumFiles step width pre suf lower upper
            sanitize extFilter (f :: rest) i =
            (f, renameNewName sub enumFiles i width pre suf lower upper sanitize
              (stemSuffix f.name).1 (stemSuffix f.name).2) ::
              renamePlan sub enumFiles step width pre suf lower upper sanitize
                extFilter rest (if enumFiles then i + step else i) := by
          conv_lhs => unfold renamePlan
          rw [if_neg hskip]
          simp only
          rw [if_pos hnn]
        rw [hplan] at hfind hfresh hdnd
        have hfindf := hfind _ (List.mem_cons_self _ _)
        obtain ⟨d, hd0⟩ := Option.isSome_iff_exists.mp hfindf.2
        have hdc : fsFind fsCur f = some d := by rw [hfindf.1]; exact hd0
        have hfreshf := hfresh _ (List.mem_cons_self _ _)
        set nn := renameNewName sub enumFiles i width pre suf lower upper sanitize
          (stemSuffix f.name).1 (stemSuffix f.name).2 with hnne
        have hfreshC : fsExists fsCur ⟨f.dir, nn⟩ = false := hfreshf.1
        have hfreshO : fsExists fs0 ⟨f.dir, nn⟩ = false := hfreshf.2
        have hmapnd := hdnd
        rw [List.map_cons, List.nodup_cons] at hmapnd
        obtain ⟨hdst_notin, hdndtail⟩ := hmapnd
        have hdst_notin2 : (⟨f.dir, nn⟩ : FPath) ∉
            (renamePlan sub enumFiles step width pre suf lower upper sanitize
              extFilter rest (if enumFiles then i + step else i)).map
              (fun q => (⟨q.1.dir, q.2⟩ : FPath)) := hdst_notin
        have hfind' : ∀ q ∈ renamePlan sub enumFiles step width pre suf lower upper
            sanitize extFilter rest (if enumFiles then i + step else i),
            fsFind (fsInsert (fsErase fsCur f) ⟨f.dir, nn⟩ d) q.1 = fsFind fs0 q.1 ∧
              (fsFind fs0 q.1).isSome = true := by
          intro q hq
          have hqf := hfind q (List.mem_cons_of_mem _ hq)
          have hqsrc := renamePlan_src_mem sub enumFiles step width pre suf lower
            upper sanitize extFilter rest _ q hq
          have hqne : q.1 ≠ f := fun h => hfnotin (h ▸ hqsrc)
          have hqnd : q.1 ≠ (⟨f.dir, nn⟩ : FPath) :=
            fsFind_ne_of_exists_ne fsCur q.1 _
              (by rw [hqf.1]; exact hqf.2) hfreshC
          rw [fsFind_insert_ne _ _ _ _ hqnd, fsFind_erase_ne _ _ _ hqne]
          exact hqf
        have hfresh' : ∀ q ∈ renamePlan sub enumFiles step width pre suf lower upper
            sanitize extFilter rest (if enumFiles then i + step else i),
            fsExists (fsInsert (fsErase fsCur f) ⟨f.dir, nn⟩ d)
              ⟨q.1.dir, q.2⟩ = false ∧
              fsExists fs0 ⟨q.1.dir, q.2⟩ = false := by
          intro q hq
          have hqfr := hfresh q (List.mem_cons_of_mem _ hq)
          have hne : (⟨q.1.dir, q.2⟩ : FPath) ≠ ⟨f.dir, nn⟩ := by
            intro h
            exact hdst_notin2 (h ▸ List.mem_map_of_mem _ hq)
          rw [fsExists_insert_ne _ _ _ _ hne]
          exact ⟨fsExists_erase_false _ _ _ hqfr.1, hqfr.2⟩
        have happly : rename_file fsCur f nn true =
            some (⟨"rename", f, some ⟨f.dir, nn⟩, []⟩,
              fsInsert (fsErase fsCur f) ⟨f.dir, nn⟩ d) :=
          rename_file_apply fsCur f nn d hdc hfreshC
        have hdry0 : rename_file fs0 f nn false =
            some (⟨"rename", f, some ⟨f.dir, nn⟩, []⟩, fs0) := by
          rw [rename_file_dry, uniquePath_of_free fs0 ⟨f.dir, nn⟩ hfreshO]
        obtain ⟨as, fsEnd, hT, hF⟩ := ih (if enumFiles then i + step else i)
          (fsInsert (fsErase fsCur f) ⟨f.dir, nn⟩ d)
          (acc ++ [⟨"rename", f, some ⟨f.dir, nn⟩, []⟩])
          hnd' hfind' hfresh' hdndtail
        refine ⟨⟨"rename", f, some ⟨f.dir, nn⟩, []⟩ :: as, fsEnd, ?_, ?_⟩
        · simp only [renGo]
          rw [← hnne, if_neg hskip, if_pos hnn]
          simp only [happly]
          rw [hT]
          simp
        · simp only [renGo]
          rw [← hnne, if_neg hskip, if_pos hnn]
          simp only [hdry0]
          rw [hF]
          simp
      · have hplan : renamePlan sub enumFiles step width pre suf lower upper
            sanitize extFilter (f :: rest) i =
            renamePlan sub enumFiles step width pre suf lower upper sanitize
              extFilter rest (if enumFiles then i + step else i) := by
          conv_lhs => unfold renamePlan
          rw [if_neg hskip]
          simp only
          rw [if_neg hnn]
        rw [hplan] at hfind hfresh hdnd
        obtain ⟨as, fsEnd, hT, hF⟩ := ih (if enumFiles then i + step else i) fsCur
          acc hnd' hfind hfresh hdnd
        refine ⟨as, fsEnd, ?_, ?_⟩
        · simp only [renGo]
          rw [if_neg hskip, if_neg hnn]
          exact hT
        · simp only [renGo]
          rw [if_neg hskip, if_neg hnn]
          exact hF

/-! ### Apply equals dry run for cmd_clean without an archive directory -/

theorem cleanGo_apply_eq (env : Env) (ol lg : Option Int) (now : Int)
    (ut dp : Bool) (fs0 : Fs) :
    ∀ (files : List FPath) (fsCur : Fs) (acc : List Action),
      files.Nodup →
      (∀ f ∈ files, fsFind fsCur f = fsFind fs0 f) →
      ∃ as fsEnd,
        cleanGo env ol lg now none ut dp true files acc fsCur =
          some (acc ++ as, fsEnd) ∧
        cleanGo env ol lg now none ut dp false files acc fs0 =
          some (acc ++ as, fs0) := by
  intro files
  induction files with
  | nil =>
    exact fun fsCur acc _ _ => ⟨[], fsCur, by simp [cleanGo], by simp [cleanGo]⟩
  | cons f rest ih =>
    intro fsCur acc hnd hfind
    have hnd' := (List.nodup_cons.mp hnd).2
    have hfnotin := (List.nodup_cons.mp hnd).1
    have hfindf := hfind f (List.mem_cons_self f rest)
    cases hd0 : fsFind fs0 f with
    | none =>
      have hdc : fsFind fsCur f = none := by rw [hfindf]; exact hd0
      obtain ⟨as, fsEnd, hT, hF⟩ := ih fsCur acc hnd'
        (fun g hg => hfind g (List.mem_cons_of_mem f hg))
      refine ⟨as, fsEnd, ?_, ?_⟩
      · simp only [cleanGo, hdc]
        exact hT
      · simp only [cleanGo, hd0]
        exact hF
    | some d =>
      have hdc : fsFind fsCur f = some d := by rw [hfindf]; exact hd0
      by_cases hm : cleanMatches ol lg now d
      · have hstepT : cleanStep env none ut dp true fsCur f =
            some (⟨if dp then "delete"
              else if ut && env.hasTrash then "trash" else "delete",
              f, none, []⟩, fsErase fsCur f) := by
          by_cases hdp : dp
          · simp [cleanStep, hdp, safe_delete_apply env fsCur f false d hdc]
          · simp [cleanStep, hdp, safe_delete_apply env fsCur f ut d hdc]
        have hstepF : cleanStep env none ut dp false fs0 f =
            some (⟨if dp then "delete"
              else if ut && env.hasTrash then "trash" else "delete",
              f, none, []⟩, fs0) := by
          by_cases hdp : dp
          · simp [cleanStep, hdp, safe_delete_dry]
          · simp [cleanStep, hdp, safe_delete_dry]
        have hfind' : ∀ g ∈ rest, fsFind (fsErase fsCur f) g = fsFind fs0 g := by
          intro g hg
          have hgne : g ≠ f := fun h => hfnotin (h ▸ hg)
          rw [fsFind_erase_ne _ _ _ hgne]
          exact hfind g (List.mem_cons_of_mem f hg)
        obtain ⟨as, fsEnd, hT, hF⟩ := ih (fsErase fsCur f)
          (acc ++ [⟨if dp then "delete"
            else if ut && env.hasTrash then "trash" else "delete", f, none, []⟩])
          hnd' hfind'
        refine ⟨⟨if dp then "delete"
          else if ut && env.hasTrash then "trash" else "delete",
          f, none, []⟩ :: as, fsEnd, ?_, ?_⟩
        · simp only [cleanGo, hdc]
          rw [if_pos hm]
          simp only [hstepT]
          rw [hT]
          simp
        · simp only [cleanGo, hd0]
          rw [if_pos hm]
          simp only [hstepF]
          rw [hF]
          simp
      · obtain ⟨as, fsEnd, hT, hF⟩ := ih fsCur acc hnd'
          (fun g hg => hfind g (List.mem_cons_of_mem f hg))
        refine ⟨as, fsEnd, ?_, ?_⟩
        · simp only [cleanGo, hdc]
          rw [if_neg hm]
          exact hT
        · simp only [cleanGo, hd0]
          rw [if_neg hm]
          exact hF

/-! ### Helpers for unique_path probing and for undoing single actions -/

theorem uniquePath_first_probe (fs : Fs) (dst : FPath)
    (hocc : fsExists fs dst = true)
    (hfree : fsExists fs ⟨dst.dir, probeName (stemSuffix dst.name).1
      (stemSuffix dst.name).2 1⟩ = false) :
    uniquePath fs dst =
      ⟨dst.dir, probeName (stemSuffix dst.name).1 (stemSuffix dst.name).2 1⟩ := by
  unfold uniquePath
  rw [if_pos hocc]
  show uniquePathLoop fs dst.dir _ _ (fs.length + 1) 1 = _
  rw [show fs.length + 1 = Nat.succ fs.length from rfl]
  unfold uniquePathLoop
  simp only [hfree]
  simp

theorem undoStep_rename (fs : Fs) (src dst : FPath) (app : Bool) :
    undoStep fs ⟨"rename", src, some dst, []⟩ app =
      (rename_file fs dst src.name app).map (fun r => ([r.1], r.2)) := by
  unfold undoStep
  rw [if_neg (by decide : ¬ ("rename" = "move")), if_pos rfl]

theorem undoStep_move (fs : Fs) (src dst : FPath) (app : Bool) :
    undoStep fs ⟨"move", src, some dst, []⟩ app =
      (move_file fs dst src.dir app).map (fun r => ([r.1], r.2)) := by
  unfold undoStep
  rw [if_pos rfl]

theorem undo_actions_single (fs : Fs) (a : Action) (app : Bool) :
    undo_actions fs [a] app =
      (undoStep fs a app).map (fun r => ([] ++ r.1, r.2)) := by
  unfold undo_actions undoGo
  rw [List.reverse_singleton]
  cases h : undoStep fs a app with
  | none => simp [undoGo, h]
  | some r => simp [undoGo, h]

/-! ## Claim theorems -/

/-- C1: the claim says that undo with apply=true removes the undone batch
from the action history.  The code pops the batch from the COPY returned by
get_action_history, so the stored history is unchanged: on a state holding
exactly one applied move batch, undoing batch 0 with apply=true succeeds,
performs the reverse move, and the returned state still stores the original
one-element history. -/
theorem c1_undo_apply_keeps_history :
    undoEndpoint stUndo (some 0) true =
      Except.ok ([⟨"move", ⟨["r", "txt"], "f.txt"⟩, some ⟨["r"], "f.txt"⟩, []⟩],
        ⟨[(⟨["r"], "f.txt"⟩, ⟨"x", 1, 0⟩)],
         [[⟨"move", ⟨["r"], "f.txt"⟩, some ⟨["r", "txt"], "f.txt"⟩, []⟩]]⟩) ∧
    get_action_history stUndo =
      [[⟨"move", ⟨["r"], "f.txt"⟩, some ⟨["r", "txt"], "f.txt"⟩, []⟩]] := by
  decide

/-- C3 counterexample: the claim says the returned DuplicateGroup carries a
wasted-bytes value equal to size(a); cmd_dupes never sets the field, so in
the a/b/c scenario the single group's wasted_bytes is null rather than the
size of a. -/
theorem c3_wasted_bytes_counterexample :
    (cmd_dupes envId fsDupes3 ["r"] "sha256" "list" none true [] false).map
      (fun r => r.1.map (fun g => g.wasted_bytes)) = some [none] ∧
    (none : Option Nat) ≠ some 1 := by
  decide

/-- C3 amended: on a directory with a.txt and b.txt of identical bytes and
c.txt of a different size, cmd_dupes returns exactly one group of count 2
whose keep and duplicates are a.txt and b.txt, with size_bytes the size of
a; no group mentions c.txt; the group's own wasted_bytes field is null (the
field is only populated by the streaming variant), while the response-level
total computed by the router as size times (count - 1) equals size(a). -/
theorem c3_dupes_amended :
    cmd_dupes envId fsDupes3 ["r"] "sha256" "list" none true [] false =
      some ([⟨"x", "sha256", 1, 2, ⟨["r"], "a.txt"⟩, [⟨["r"], "b.txt"⟩],
        [⟨"dupe", ⟨["r"], "b.txt"⟩, none, [("kept", "r/a.txt")]⟩], none⟩],
        fsDupes3) ∧
    dupesTotalWasted [⟨"x", "sha256", 1, 2, ⟨["r"], "a.txt"⟩, [⟨["r"], "b.txt"⟩],
      [⟨"dupe", ⟨["r"], "b.txt"⟩, none, [("kept", "r/a.txt")]⟩], none⟩] = 1 := by
  decide

/-- C5 counterexample: the claim says lowercase folding wins when both lower
and upper are set; the rename pipeline applies a fold only when the other
flag is off, so with both set the stem A keeps its case while lower alone
folds it. -/
theorem c5_case_fold_counterexample :
    renameNewName none false 1 3 "" "" true true false "A" "" ≠
      renameNewName none false 1 3 "" "" true false false "A" "" := by
  decide

/-- C5 amended: when both lower and upper are set, neither fold is applied:
for every input the name computed with lower=true, upper=true equals the
name computed with both flags off. -/
theorem c5_case_fold_amended (sub : Option (String → String)) (enumFiles : Bool)
    (i : Int) (width : Nat) (pre suf : String) (sanitize : Bool)
    (stem ext : String) :
    renameNewName sub enumFiles i width pre suf true true sanitize stem ext =
      renameNewName sub enumFiles i width pre suf false false sanitize stem ext := by
  simp [renameNewName]

/-- C6 counterexample: the claim says a file is selected only when its size
exceeds largerThanMB megabytes; a file of exactly largerThanMB mebibytes
(1048576 bytes with largerThanMB = 1) does not exceed the threshold yet
cmd_clean selects and trashes it. -/
theorem c6_boundary_counterexample :
    cleanMatches none (some 1) 0 ⟨"", 1048576, 0⟩ = true ∧
    ¬ ((1 : Int) * 1048576 < (1048576 : Int)) ∧
    (cmd_clean envId [(⟨["r"], "big.bin"⟩, ⟨"", 1048576, 0⟩)] ["r"] none (some 1)
      0 none true false false true [] false).map Prod.fst =
      some [⟨"trash", ⟨["r"], "big.bin"⟩, none, []⟩] := by
  decide

/-- C9: on an empty directory (a scan yielding no files) cmd_index_stream
yields exactly two events: a scanning-phase progress event with totals 0,
then a complete event with zero files and zero bytes, with no
indexing-phase progress events in between. -/
theorem c9_index_stream_empty (env : Env) (fs : Fs) (path : List String)
    (includeHash : Bool) (algo : String) (recursive : Bool)
    (exclude : List String)
    (hempty : safe_iter_files env fs path recursive exclude [] = []) :
    cmd_index_stream env fs path includeHash algo recursive exclude =
      [StreamEvent.progress 0 0 "scanning" none, StreamEvent.complete 0 0 []] := by
  unfold cmd_index_stream
  rw [hempty]
  rfl

/-- C9 witness: the empty filesystem scans to nothing and the stream is the
two-event sequence. -/
theorem c9_index_stream_empty_witness :
    cmd_index_stream envId [] ["r"] false "sha256" true [] =
      [StreamEvent.progress 0 0 "scanning" none, StreamEvent.complete 0 0 []] :=
  c9_index_stream_empty envId [] ["r"] false "sha256" true [] rfl

/-- C4: moving two distinct same-named files into one destination directory
with apply=true is collision safe: when the base destination and its first
probe name are unoccupied, the first move lands at base, the second lands
at the "(1)"-suffixed probe name, the two Actions carry distinct dst paths,
and afterwards both files exist with their original contents - neither
overwrites the other. -/
theorem c4_collision_safety (fs : Fs) (s1 s2 : FPath) (c1 c2 : FileData)
    (D : List String)
    (hne : s1 ≠ s2) (hname : s1.name = s2.name)
    (hd1 : fsFind fs s1 = some c1) (hd2 : fsFind fs s2 = some c2)
    (hbase : fsExists fs ⟨D, s1.name⟩ = false)
    (hcand : fsExists fs ⟨D, probeName (stemSuffix s1.name).1
      (stemSuffix s1.name).2 1⟩ = false) :
    ∃ a1 fs1 a2 fs2,
      move_file fs s1 D true = some (a1, fs1) ∧
      move_file fs1 s2 D true = some (a2, fs2) ∧
      a1.dst = some ⟨D, s1.name⟩ ∧
      a2.dst = some ⟨D, probeName (stemSuffix s1.name).1 (stemSuffix s1.name).2 1⟩ ∧
      a1.dst ≠ a2.dst ∧
      fsFind fs2 ⟨D, s1.name⟩ = some c1 ∧
      fsFind fs2 ⟨D, probeName (stemSuffix s1.name).1 (stemSuffix s1.name).2 1⟩ =
        some c2 := by
  have hmv1 := move_file_apply fs s1 D c1 hd1 hbase
  set base : FPath := ⟨D, s1.name⟩ with hbasee
  set cand : FPath := ⟨D, probeName (stemSuffix s1.name).1 (stemSuffix s1.name).2 1⟩
    with hcande
  set fs1 : Fs := fsInsert (fsErase fs s1) base c1 with hfs1e
  have hnamecand : cand.name ≠ base.name := by
    rw [hcande, hbasee]
    exact probeName_ne_base _ _ _ 1 (stemSuffix_append s1.name)
  have hcandbase : cand ≠ base := fun h => hnamecand (congrArg FPath.name h)
  have hs1base : s1 ≠ base := fsFind_ne_of_exists_ne fs s1 base (by rw [hd1]; rfl) hbase
  have hs2base : s2 ≠ base := fsFind_ne_of_exists_ne fs s2 base (by rw [hd2]; rfl) hbase
  have hs1cand : s1 ≠ cand := fsFind_ne_of_exists_ne fs s1 cand (by rw [hd1]; rfl) hcand
  have hs2cand : s2 ≠ cand := fsFind_ne_of_exists_ne fs s2 cand (by rw [hd2]; rfl) hcand
  have hfind2 : fsFind fs1 s2 = some c2 := by
    rw [hfs1e, fsFind_insert_ne _ _ _ _ hs2base, fsFind_erase_ne _ _ _ (Ne.symm hne)]
    exact hd2
  have hocc1 : fsExists fs1 base = true := by
    rw [hfs1e]; exact fsExists_insert_self _ _ _
  have hcand1 : fsExists fs1 cand = false := by
    rw [hfs1e, fsExists_insert_ne _ _ _ _ hcandbase]
    exact fsExists_erase_false _ _ _ hcand
  have hbase2 : (⟨D, s2.name⟩ : FPath) = base := by rw [hbasee, ← hname]
  have hprobe : uniquePath fs1 base = cand := by
    have := uniquePath_first_probe fs1 base hocc1
    rw [hcande]
    exact this (by rw [← hcande]; exact hcand1)
  have hmv2 : move_file fs1 s2 D true =
      some (⟨"move", s2, some cand, []⟩, fsInsert (fsErase fs1 s2) cand c2) := by
    unfold move_file
    rw [hbase2, hprobe, hfind2]
    rfl
  refine ⟨⟨"move", s1, some base, []⟩, fs1, ⟨"move", s2, some cand, []⟩,
    fsInsert (fsErase fs1 s2) cand c2, hmv1, hmv2, rfl, rfl, ?_, ?_, ?_⟩
  · intro h
    simp only [Action.mk.injEq] at h
    exact hcandbase (by injection h with h1; exact h1.symm)
  · rw [fsFind_insert_ne _ _ _ _ hcandbase.symm,
      fsFind_erase_ne _ _ _ (Ne.symm hs2base), hfs1e, fsFind_insert_self]
  · rw [fsFind_insert_self]

/-- C4 witness: the two same-named files of fsPair moved into the directory
d land at d/f.txt and d/f (1).txt with both contents preserved. -/
theorem c4_collision_safety_witness :
    ∃ a1 fs1 a2 fs2,
      move_file fsPair ⟨["a"], "f.txt"⟩ ["d"] true = some (a1, fs1) ∧
      move_file fs1 ⟨["b"], "f.txt"⟩ ["d"] true = some (a2, fs2) ∧
      a1.dst = some ⟨["d"], "f.txt"⟩ ∧
      a2.dst = some ⟨["d"], probeName (stemSuffix "f.txt").1
        (stemSuffix "f.txt").2 1⟩ ∧
      a1.dst ≠ a2.dst ∧
      fsFind fs2 ⟨["d"], "f.txt"⟩ = some ⟨"1", 1, 0⟩ ∧
      fsFind fs2 ⟨["d"], probeName (stemSuffix "f.txt").1
        (stemSuffix "f.txt").2 1⟩ = some ⟨"2", 1, 0⟩ :=
  c4_collision_safety fsPair ⟨["a"], "f.txt"⟩ ⟨["b"], "f.txt"⟩ ⟨"1", 1, 0⟩
    ⟨"2", 1, 0⟩ ["d"] (by decide) rfl (by decide) (by decide) (by decide)
    (by decide)

/-- C8: renaming report.txt to report_001.txt with apply=true and undoing
that one-action batch with apply=true restores a file named report.txt in
the same directory with its content unchanged; the reverse action renames
the destination back to the original bare filename. -/
theorem c8_rename_undo_roundtrip (dir : List String) (fs0 : Fs) (c : FileData)
    (hsrc : fsFind fs0 ⟨dir, "report.txt"⟩ = some c)
    (hfree : fsExists fs0 ⟨dir, "report_001.txt"⟩ = false) :
    ∃ a fs1 r fs2,
      rename_file fs0 ⟨dir, "report.txt"⟩ "report_001.txt" true = some (a, fs1) ∧
      a = ⟨"rename", ⟨dir, "report.txt"⟩, some ⟨dir, "report_001.txt"⟩, []⟩ ∧
      undo_actions fs1 [a] true = some ([r], fs2) ∧
      r = ⟨"rename", ⟨dir, "report_001.txt"⟩, some ⟨dir, "report.txt"⟩, []⟩ ∧
      fsFind fs2 ⟨dir, "report.txt"⟩ = some c := by
  set src : FPath := ⟨dir, "report.txt"⟩ with hsrce
  set dst : FPath := ⟨dir, "report_001.txt"⟩ with hdste
  have hsd : src ≠ dst := by
    intro h
    have hn := congrArg FPath.name h
    have hn2 : "report.txt" = ("report_001.txt" : String) := hn
    exact absurd hn2 (by decide)
  have hrn := rename_file_apply fs0 src "report_001.txt" c hsrc hfree
  set fs1 : Fs := fsInsert (fsErase fs0 src) dst c with hfs1e
  have hfind1 : fsFind fs1 dst = some c := by
    rw [hfs1e, fsFind_insert_self]
  have hfree1 : fsExists fs1 src = false := by
    rw [hfs1e, fsExists_insert_ne _ _ _ _ hsd]
    simp [fsExists, fsFind_erase_self]
  have hback := rename_file_apply fs1 dst "report.txt" c hfind1 hfree1
  refine ⟨⟨"rename", src, some dst, []⟩, fs1,
    ⟨"rename", dst, some src, []⟩, fsInsert (fsErase fs1 dst) src c,
    hrn, rfl, ?_, rfl, ?_⟩
  · rw [undo_actions_single, undoStep_rename, hback]
    rfl
  · rw [fsFind_insert_self]

/-- C8 witness: the round trip on a concrete one-file directory restores
report.txt with its content. -/
theorem c8_rename_undo_roundtrip_witness :
    ∃ a fs1 r fs2,
      rename_file [(⟨["r"], "report.txt"⟩, (⟨"data", 4, 0⟩ : FileData))]
        ⟨["r"], "report.txt"⟩ "report_001.txt" true = some (a, fs1) ∧
      a = ⟨"rename", ⟨["r"], "report.txt"⟩, some ⟨["r"], "report_001.txt"⟩, []⟩ ∧
      undo_actions fs1 [a] true = some ([r], fs2) ∧
      r = ⟨"rename", ⟨["r"], "report_001.txt"⟩, some ⟨["r"], "report.txt"⟩, []⟩ ∧
      fsFind fs2 ⟨["r"], "report.txt"⟩ = some ⟨"data", 4, 0⟩ :=
  c8_rename_undo_roundtrip ["r"]
    [(⟨["r"], "report.txt"⟩, ⟨"data", 4, 0⟩)] ⟨"data", 4, 0⟩
    (by decide) (by decide)

/-- C10: undo with apply=true never overwrites an existing file.  For a
recorded rename (or move) from s to t, when a file now occupies the
original source path s, reversing the action recomputes the restoration
target through unique_path: the restored file is placed at the
collision-suffixed uniquePath fs s, which differs from s, the occupant of
s keeps its content, and every file other than the undone one is left
untouched. -/
theorem c10_undo_no_overwrite (fs : Fs) (s t : FPath) (ct co : FileData)
    (hdst : fsFind fs t = some ct) (hocc : fsFind fs s = some co)
    (hne : s ≠ t) :
    (t.dir = s.dir →
      ∃ r fs', undo_actions fs [⟨"rename", s, some t, []⟩] true =
          some ([r], fs') ∧
        r = ⟨"rename", t, some (uniquePath fs s), []⟩ ∧
        uniquePath fs s ≠ s ∧
        fsFind fs' s = some co ∧
        fsFind fs' (uniquePath fs s) = some ct ∧
        (∀ x d, x ≠ t → fsFind fs x = some d → fsFind fs' x = some d)) ∧
    (t.name = s.name →
      ∃ r fs', undo_actions fs [⟨"move", s, some t, []⟩] true =
          some ([r], fs') ∧
        r = ⟨"move", t, some (uniquePath fs s), []⟩ ∧
        uniquePath fs s ≠ s ∧
        fsFind fs' s = some co ∧
        fsFind fs' (uniquePath fs s) = some ct ∧
        (∀ x d, x ≠ t → fsFind fs x = some d → fsFind fs' x = some d)) := by
  have hufree : fsExists fs (uniquePath fs s) = false := uniquePath_fresh fs s
  have hus : uniquePath fs s ≠ s :=
    Ne.symm (fsFind_ne_of_exists_ne fs s (uniquePath fs s) (by rw [hocc]; rfl) hufree)
  have hut : uniquePath fs s ≠ t :=
    Ne.symm (fsFind_ne_of_exists_ne fs t (uniquePath fs s) (by rw [hdst]; rfl) hufree)
  have hcommon : ∀ (fs' : Fs), fs' = fsInsert (fsErase fs t) (uniquePath fs s) ct →
      fsFind fs' s = some co ∧
      fsFind fs' (uniquePath fs s) = some ct ∧
      (∀ x d, x ≠ t → fsFind fs x = some d → fsFind fs' x = some d) := by
    intro fs' hfs'
    subst hfs'
    refine ⟨?_, fsFind_insert_self _ _ _, ?_⟩
    · rw [fsFind_insert_ne _ _ _ _ (Ne.symm hus), fsFind_erase_ne _ _ _ hne]
      exact hocc
    · intro x d hxt hx
      have hxu : x ≠ uniquePath fs s :=
        fsFind_ne_of_exists_ne fs x _ (by rw [hx]; rfl) hufree
      rw [fsFind_insert_ne _ _ _ _ hxu, fsFind_erase_ne _ _ _ hxt]
      exact hx
  constructor
  · intro hdir
    have hbase : (⟨t.dir, s.name⟩ : FPath) = s := by rw [hdir]
    have hren : rename_file fs t s.name true =
        some (⟨"rename", t, some (uniquePath fs s), []⟩,
          fsInsert (fsErase fs t) (uniquePath fs s) ct) := by
      unfold rename_file
      rw [hbase, hdst]
      rfl
    refine ⟨⟨"rename", t, some (uniquePath fs s), []⟩,
      fsInsert (fsErase fs t) (uniquePath fs s) ct, ?_, rfl, hus, ?_⟩
    · rw [undo_actions_single, undoStep_rename, hren]
      rfl
    · obtain ⟨h1, h2, h3⟩ := hcommon _ rfl
      exact ⟨h1, h2, h3⟩
  · intro hnm
    have hbase : (⟨s.dir, t.name⟩ : FPath) = s := by rw [hnm]
    have hmv : move_file fs t s.dir true =
        some (⟨"move", t, some (uniquePath fs s), []⟩,
          fsInsert (fsErase fs t) (uniquePath fs s) ct) := by
      unfold move_file
      rw [hbase, hdst]
      rfl
    refine ⟨⟨"move", t, some (uniquePath fs s), []⟩,
      fsInsert (fsErase fs t) (uniquePath fs s) ct, ?_, rfl, hus, ?_⟩
    · rw [undo_actions_single, undoStep_move, hmv]
      rfl
    · obtain ⟨h1, h2, h3⟩ := hcommon _ rfl
      exact ⟨h1, h2, h3⟩

/-- C10 witness: undoing the recorded rename a.txt to b.txt while a new
file occupies a.txt restores the old content at the suffixed a (1).txt and
leaves the occupant intact. -/
theorem c10_undo_no_overwrite_witness :
    ∃ r fs', undo_actions fsOccupied
        [⟨"rename", ⟨["r"], "a.txt"⟩, some ⟨["r"], "b.txt"⟩, []⟩] true =
        some ([r], fs') ∧
      r = ⟨"rename", ⟨["r"], "b.txt"⟩,
        some (uniquePath fsOccupied ⟨["r"], "a.txt"⟩), []⟩ ∧
      uniquePath fsOccupied ⟨["r"], "a.txt"⟩ ≠ ⟨["r"], "a.txt"⟩ ∧
      fsFind fs' ⟨["r"], "a.txt"⟩ = some ⟨"new", 3, 0⟩ ∧
      fsFind fs' (uniquePath fsOccupied ⟨["r"], "a.txt"⟩) = some ⟨"old", 3, 0⟩ ∧
      (∀ x d, x ≠ ⟨["r"], "b.txt"⟩ → fsFind fsOccupied x = some d →
        fsFind fs' x = some d) :=
  (c10_undo_no_overwrite fsOccupied ⟨["r"], "a.txt"⟩ ⟨["r"], "b.txt"⟩
    ⟨"old", 3, 0⟩ ⟨"new", 3, 0⟩ (by decide) (by decide) (by decide)).1 rfl

/-- C6 amended: a scanned file is selected by cmd_clean iff (no age filter,
or its mtime is strictly below now minus olderThanDays days) AND (no size
filter, or its size is AT LEAST largerThanMB times 1048576 bytes - the
boundary file of exactly the threshold size is selected, and the unit is
mebibytes); moreover the dry run returns exactly one archive/trash/delete
action per selected scanned file. -/
theorem c6_clean_filter_amended :
    (∀ (ol lg : Option Int) (now : Int) (d : FileData),
      cleanMatches ol lg now d = true ↔
        ((∀ days, ol = some days → d.mtime < now - days * 86400) ∧
         (∀ mb, lg = some mb → mb * 1048576 ≤ (d.size : Int)))) ∧
    (∀ (env : Env) (fs0 : Fs) (path : List String) (ol lg : Option Int)
        (now : Int) (ad : Option (List String)) (ut dp re recursive : Bool)
        (ex : List String),
      cmd_clean env fs0 path ol lg now ad ut dp re recursive ex false =
        some ((safe_iter_files env fs0 path recursive ex []).filterMap
          (cleanDryAct env ol lg now ad ut dp fs0), fs0)) := by
  constructor
  · intro ol lg now d
    cases ol with
    | none =>
      cases lg with
      | none => simp [cleanMatches]
      | some mb => simp [cleanMatches]
    | some days =>
      cases lg with
      | none => simp [cleanMatches]
      | some mb => simp [cleanMatches]
  · intro env fs0 path ol lg now ad ut dp re recursive ex
    simp only [cmd_clean]
    rw [cleanGo_dry]
    simp

/-- C6 witness: the boundary-exceeding file of two mebibytes satisfies the
amended filter, and the dry-run equation holds on a concrete directory. -/
theorem c6_clean_filter_amended_witness :
    cleanMatches none (some 1) 0 ⟨"", 2097152, 0⟩ = true ∧
    cmd_clean envId fsSingle ["r"] none none 0 none true false false true []
      false =
      some ((safe_iter_files envId fsSingle ["r"] true [] []).filterMap
        (cleanDryAct envId none none 0 none true false fsSingle), fsSingle) := by
  constructor
  · refine (c6_clean_filter_amended.1 none (some 1) 0 ⟨"", 2097152, 0⟩).mpr
      ⟨?_, ?_⟩
    · intro days h
      simp at h
    · intro mb h
      injection h with h1
      rw [← h1]
      decide
  · exact c6_clean_filter_amended.2 envId fsSingle ["r"] none none 0 none true
      false false true []

/-- Every group produced by the bucket loop of cmd_dupes comes from one of
the hash buckets: its keep and duplicates are exactly that bucket's file
list. -/
theorem dupesGo_groups (env : Env) (algo action : String)
    (ad : Option (List String)) (app : Bool) :
    ∀ (buckets : List (String × List FPath)) (gs0 : List DupeGroup) (fs : Fs)
      (gs : List DupeGroup) (fsEnd : Fs),
      dupesGo env algo action ad app buckets gs0 fs = some (gs, fsEnd) →
      ∀ g ∈ gs, g ∈ gs0 ∨ ∃ b ∈ buckets, b.2 = g.keep :: g.duplicates := by
  intro buckets
  induction buckets with
  | nil =>
    intro gs0 fs gs fsEnd hrun g hg
    simp [dupesGo] at hrun
    rw [← hrun.1] at hg
    exact Or.inl hg
  | cons b rest ih =>
    intro gs0 fs gs fsEnd hrun g hg
    obtain ⟨h, files⟩ := b
    by_cases hlen : files.length < 2
    · rw [show dupesGo env algo action ad app ((h, files) :: rest) gs0 fs =
          dupesGo env algo action ad app rest gs0 fs from by
            simp only [dupesGo]; rw [if_pos hlen]] at hrun
      rcases ih gs0 fs gs fsEnd hrun g hg with hin | ⟨b', hb', heq⟩
      · exact Or.inl hin
      · exact Or.inr ⟨b', List.mem_cons_of_mem _ hb', heq⟩
    · cases files with
      | nil => simp at hlen
      | cons f0 dups =>
        simp only [dupesGo] at hrun
        rw [if_neg hlen] at hrun
        cases hd : fsFind fs f0 with
        | none => rw [hd] at hrun; exact absurd hrun (by simp)
        | some d =>
          rw [hd] at hrun
          cases hacts : dupeActsGo env action ad f0 app dups [] fs with
          | none => rw [hacts] at hrun; exact absurd hrun (by simp)
          | some r =>
            rw [hacts] at hrun
            rcases ih _ _ gs fsEnd hrun g hg with hin | ⟨b', hb', heq⟩
            · rcases List.mem_append.mp hin with hin | hin
              · exact Or.inl hin
              · simp at hin
                subst hin
                exact Or.inr ⟨(h, f0 :: dups), List.mem_cons_self _ _, rfl⟩
            · exact Or.inr ⟨b', List.mem_cons_of_mem _ hb', heq⟩

/-- C7: per-file hashing failures are isolated.  Under a scheduler that
permutes its input (the thread pool completes every submitted task), the
parallel hash result has one entry per submitted file; a file whose hash
raised is recorded with a none digest rather than aborting the batch; and
a file with a none hash never appears in any DuplicateGroup of cmd_dupes,
neither as keep nor among the duplicates. -/
theorem c7_hash_failure_isolated (env : Env) (fs : Fs) (algo : String) :
    (∀ (files : List FPath), (∀ l, (env.sched l).Perm l) →
      ∀ f ∈ files,
        (f, hashResult env fs algo f) ∈ parallel_hash_files env fs files algo) ∧
    (∀ (files : List FPath), (∀ l, (env.sched l).Perm l) →
      ∀ f ∈ files, hashResult env fs algo f = none →
        (f, (none : Option String)) ∈ parallel_hash_files env fs files algo) ∧
    (∀ (path : List String) (action : String) (ad : Option (List String))
        (recursive : Bool) (ex : List String) (app : Bool) (gs : List DupeGroup)
        (fsEnd : Fs) (f : FPath),
      cmd_dupes env fs path algo action ad recursive ex app = some (gs, fsEnd) →
      hashResult env fs algo f = none →
      ∀ g ∈ gs, f ≠ g.keep ∧ f ∉ g.duplicates) := by
  have hmem : ∀ (files : List FPath), (∀ l, (env.sched l).Perm l) →
      ∀ f ∈ files,
        (f, hashResult env fs algo f) ∈ parallel_hash_files env fs files algo := by
    intro files hperm f hf
    unfold parallel_hash_files
    exact List.mem_map_of_mem _ (((hperm files).mem_iff).mpr hf)
  refine ⟨hmem, ?_, ?_⟩
  · intro files hperm f hf hfail
    have := hmem files hperm f hf
    rw [hfail] at this
    exact this
  · intro path action ad recursive ex app gs fsEnd f hcmd hfail g hg
    simp only [cmd_dupes] at hcmd
    rcases dupesGo_groups env algo action ad app _ [] fs gs fsEnd hcmd g hg with
      hin | ⟨b, hb, heq⟩
    · simp at hin
    · have hkeep : g.keep ∈ b.2 := by rw [heq]; exact List.mem_cons_self _ _
      have hkeepentry := dupesByHash_mem _ b hb g.keep hkeep
      have hkeepval := mem_parallel_hash env fs _ algo (g.keep, some b.1) hkeepentry
      simp only at hkeepval
      constructor
      · intro hfk
        rw [← hfk] at hkeepval
        rw [hfail] at hkeepval
        exact absurd hkeepval (by simp)
      · intro hfd
        have hfb : f ∈ b.2 := by rw [heq]; exact List.mem_cons_of_mem _ hfd
        have hentry := dupesByHash_mem _ b hb f hfb
        have hval := mem_parallel_hash env fs _ algo (f, some b.1) hentry
        simp only at hval
        rw [hfail] at hval
        exact absurd hval (by simp)

/-- C7 witness: with hashing failing on bad.txt, the failed file is
recorded with a none digest and is excluded from the one duplicate group
of its size bucket. -/
theorem c7_hash_failure_isolated_witness :
    (pBad, (none : Option String)) ∈
      parallel_hash_files (envFailOn pBad) fsHashFail [pBad] "sha256" ∧
    (pBad ≠ (⟨["r"], "a.txt"⟩ : FPath) ∧
      pBad ∉ [(⟨["r"], "b.txt"⟩ : FPath)]) := by
  constructor
  · exact (c7_hash_failure_isolated (envFailOn pBad) fsHashFail "sha256").2.1
      [pBad] (fun l => List.Perm.refl l) pBad (List.mem_cons_self _ _) (by decide)
  · exact (c7_hash_failure_isolated (envFailOn pBad) fsHashFail "sha256").2.2
      ["r"] "list" none true [] false
      [⟨"x", "sha256", 1, 2, ⟨["r"], "a.txt"⟩, [⟨["r"], "b.txt"⟩],
        [⟨"dupe", ⟨["r"], "b.txt"⟩, none, [("kept", "r/a.txt")]⟩], none⟩]
      fsHashFail pBad (by decide) (by decide)
      ⟨"x", "sha256", 1, 2, ⟨["r"], "a.txt"⟩, [⟨["r"], "b.txt"⟩],
        [⟨"dupe", ⟨["r"], "b.txt"⟩, none, [("kept", "r/a.txt")]⟩], none⟩
      (List.mem_cons_self _ _)

/-- C2 counterexample: organizing two same-named files from different
subdirectories into one extension bucket returns DIFFERENT Action lists
for apply=false and apply=true: the dry run resolves unique_path against
the un-mutated filesystem and reports the same destination twice, while
the apply run gives the second file a collision-suffixed destination. -/
theorem c2_dry_run_counterexample :
    (cmd_organize envId fsOrgPair ["r"] "ext" none true [] [] false false).map
      Prod.fst ≠
    (cmd_organize envId fsOrgPair ["r"] "ext" none true [] [] false true).map
      Prod.fst := by
  decide

/-- C2 amended: every command invoked with apply=false succeeds and leaves
the filesystem unchanged.  The dry-run Action list equals the apply=true
Action list only when the apply run's own mutations cannot influence any
computed destination: for organize and for rename this holds whenever the
per-file destinations are pairwise distinct and absent from the starting
filesystem; for clean without an archive directory and for findDuplicates
with action=list it holds unconditionally on a well-formed filesystem.
Without such a proviso the two lists can differ (see the counterexample),
because a dry run does not simulate the intermediate moves. -/
theorem c2_dry_run_amended (env : Env) (fs0 : Fs) :
    (∀ (path : List String) (byMode : String) (dest : Option (List String))
        (recursive : Bool) (exclude includePats : List String)
        (removeEmpty : Bool),
      ∃ as, cmd_organize env fs0 path byMode dest recursive exclude includePats
        removeEmpty false = some (as, fs0)) ∧
    (∀ (path : List String) (sub : Option (String → String)) (pre suf : String)
        (lower upper sanitize enumFiles : Bool) (start step : Int) (width : Nat)
        (extFilter : Option String) (recursive : Bool) (exclude : List String),
      ∃ as, cmd_rename env fs0 path sub pre suf lower upper sanitize enumFiles
        start step width extFilter recursive exclude false = some (as, fs0)) ∧
    (∀ (path : List String) (ol lg : Option Int) (now : Int)
        (ad : Option (List String)) (ut dp re recursive : Bool)
        (ex : List String),
      ∃ as, cmd_clean env fs0 path ol lg now ad ut dp re recursive ex false =
        some (as, fs0)) ∧
    (∀ (path : List String) (algo action : String) (ad : Option (List String))
        (recursive : Bool) (ex : List String),
      ∃ gs, cmd_dupes env fs0 path algo action ad recursive ex false =
        some (gs, fs0)) ∧
    (∀ (path : List String) (algo : String) (ad : Option (List String))
        (recursive : Bool) (ex : List String) (app : Bool),
      cmd_dupes env fs0 path algo "list" ad recursive ex app =
        cmd_dupes env fs0 path algo "list" ad recursive ex false) ∧
    (∀ (path : List String) (byMode : String) (dest : Option (List String))
        (recursive : Bool) (exclude includePats : List String),
      Fs.WF fs0 →
      (∀ f ∈ safe_iter_files env fs0 path recursive exclude includePats,
        fsExists fs0 (orgDest env fs0 byMode (dest.getD path) f) = false) →
      ((safe_iter_files env fs0 path recursive exclude includePats).map
        (orgDest env fs0 byMode (dest.getD path))).Nodup →
      (cmd_organize env fs0 path byMode dest recursive exclude includePats
        false true).map Prod.fst =
      (cmd_organize env fs0 path byMode dest recursive exclude includePats
        false false).map Prod.fst) ∧
    (∀ (path : List String) (sub : Option (String → String)) (pre suf : String)
        (lower upper sanitize enumFiles : Bool) (start step : Int) (width : Nat)
        (extFilter : Option String) (recursive : Bool) (exclude : List String),
      Fs.WF fs0 →
      (∀ q ∈ renamePlan sub enumFiles step width pre suf lower upper sanitize
          extFilter (safe_iter_files env fs0 path recursive exclude []) start,
        fsExists fs0 ⟨q.1.dir, q.2⟩ = false) →
      ((renamePlan sub enumFiles step width pre suf lower upper sanitize
        extFilter (safe_iter_files env fs0 path recursive exclude []) start).map
        (fun q => (⟨q.1.dir, q.2⟩ : FPath))).Nodup →
      (cmd_rename env fs0 path sub pre suf lower upper sanitize enumFiles start
        step width extFilter recursive exclude true).map Prod.fst =
      (cmd_rename env fs0 path sub pre suf lower upper sanitize enumFiles start
        step width extFilter recursive exclude false).map Prod.fst) ∧
    (∀ (path : List String) (ol lg : Option Int) (now : Int)
        (ut dp recursive : Bool) (ex : List String),
      Fs.WF fs0 →
      (cmd_clean env fs0 path ol lg now none ut dp false recursive ex true).map
        Prod.fst =
      (cmd_clean env fs0 path ol lg now none ut dp false recursive ex false).map
        Prod.fst) := by
  refine ⟨?_, ?_, ?_, ?_, ?_, ?_, ?_, ?_⟩
  · intro path byMode dest recursive exclude includePats removeEmpty
    obtain ⟨as, has⟩ := orgGo_dry env byMode (dest.getD path) fs0
      (safe_iter_files env fs0 path recursive exclude includePats) []
      (scan_find_isSome env fs0 path recursive exclude includePats)
    refine ⟨as, ?_⟩
    simp only [cmd_organize]
    rw [has]
    simp
  · intro path sub pre suf lower upper sanitize enumFiles start step width
      extFilter recursive exclude
    obtain ⟨as, has⟩ := renGo_dry sub enumFiles step width pre suf lower upper
      sanitize extFilter fs0 (safe_iter_files env fs0 path recursive exclude [])
      start []
    refine ⟨as, ?_⟩
    simp only [cmd_rename]
    rw [has]
    simp
  · intro path ol lg now ad ut dp re recursive ex
    refine ⟨(safe_iter_files env fs0 path recursive ex []).filterMap
      (cleanDryAct env ol lg now ad ut dp fs0), ?_⟩
    simp only [cmd_clean]
    rw [cleanGo_dry]
    simp
  · intro path algo action ad recursive ex
    obtain ⟨gs, hgs⟩ := dupesGo_dry env algo action ad fs0
      (dupesByHash (parallel_hash_files env fs0
        (dupesCandidates fs0 (safe_iter_files env fs0 path recursive ex []))
        algo)) []
      (fun b hb => bucket_find_isSome env fs0 _ algo b hb)
    refine ⟨gs, ?_⟩
    simp only [cmd_dupes]
    rw [hgs]
    simp
  · intro path algo ad recursive ex app
    simp only [cmd_dupes]
    exact dupesGo_list_app env algo ad app _ [] fs0
  · intro path byMode dest recursive exclude includePats hwf hfresh hnodup
    obtain ⟨as, fsEnd, hT, hF⟩ := orgGo_apply_eq env byMode (dest.getD path) fs0
      (safe_iter_files env fs0 path recursive exclude includePats) fs0 []
      (safe_iter_files_nodup env fs0 path recursive exclude includePats hwf)
      (fun f hf => ⟨rfl, scan_find_isSome env fs0 path recursive exclude
        includePats f hf⟩)
      (fun f hf => ⟨hfresh f hf, hfresh f hf⟩)
      hnodup
    simp only [cmd_organize]
    rw [hT, hF]
    simp
  · intro path sub pre suf lower upper sanitize enumFiles start step width
      extFilter recursive exclude hwf hfresh hnodup
    obtain ⟨as, fsEnd, hT, hF⟩ := renGo_apply_eq sub enumFiles step width pre suf
      lower upper sanitize extFilter fs0
      (safe_iter_files env fs0 path recursive exclude []) start fs0 []
      (safe_iter_files_nodup env fs0 path recursive exclude [] hwf)
      (fun q hq => ⟨rfl, scan_find_isSome env fs0 path recursive exclude [] q.1
        (renamePlan_src_mem sub enumFiles step width pre suf lower upper sanitize
          extFilter _ start q hq)⟩)
      (fun q hq => ⟨hfresh q hq, hfresh q hq⟩)
      hnodup
    simp only [cmd_rename]
    rw [hT, hF]
    simp
  · intro path ol lg now ut dp recursive ex hwf
    obtain ⟨as, fsEnd, hT, hF⟩ := cleanGo_apply_eq env ol lg now ut dp fs0
      (safe_iter_files env fs0 path recursive ex []) fs0 []
      (safe_iter_files_nodup env fs0 path recursive ex [] hwf)
      (fun f _ => rfl)
    simp only [cmd_clean]
    rw [hT, hF]
    simp

/-- C2 witness: on concrete directories the dry runs succeed without
touching the filesystem, and with a single collision-free file the apply
and dry Action lists coincide for organize, rename and clean. -/
theorem c2_dry_run_amended_witness :
    (∃ as, cmd_organize envId fsOrgPair ["r"] "ext" none true [] [] false false =
      some (as, fsOrgPair)) ∧
    (∃ gs, cmd_dupes envId fsDupes3 ["r"] "sha256" "trash" none true [] false =
      some (gs, fsDupes3)) ∧
    ((cmd_organize envId fsSingle ["r"] "ext" none true [] [] false true).map
      Prod.fst =
     (cmd_organize envId fsSingle ["r"] "ext" none true [] [] false false).map
      Prod.fst) ∧
    ((cmd_rename envId fsSingle ["r"] none "pre_" "" false false false false
        1 1 3 none true [] true).map Prod.fst =
     (cmd_rename envId fsSingle ["r"] none "pre_" "" false false false false
        1 1 3 none true [] false).map Prod.fst) ∧
    ((cmd_clean envId fsSingle ["r"] none (some 0) 0 none true false false true
        [] true).map Prod.fst =
     (cmd_clean envId fsSingle ["r"] none (some 0) 0 none true false false true
        [] false).map Prod.fst) := by
  refine ⟨?_, ?_, ?_, ?_, ?_⟩
  · exact (c2_dry_run_amended envId fsOrgPair).1 ["r"] "ext" none true [] [] false
  · exact (c2_dry_run_amended envId fsDupes3).2.2.2.1 ["r"] "sha256" "trash" none
      true []
  · exact (c2_dry_run_amended envId fsSingle).2.2.2.2.2.1 ["r"] "ext" none true
      [] [] (by unfold Fs.WF; decide) (by decide) (by decide)
  · exact (c2_dry_run_amended envId fsSingle).2.2.2.2.2.2.1 ["r"] none "pre_" ""
      false false false false 1 1 3 none true [] (by unfold Fs.WF; decide)
      (by decide) (by decide)
  · exact (c2_dry_run_amended envId fsSingle).2.2.2.2.2.2.2 ["r"] none (some 0) 0
      true false true [] (by unfold Fs.WF; decide)

end Fileman
